import Mathlib

/-!
Shallow embedding of the tuneGUI repository: `tune_gui/parameter_tree_widget.py`
and `tune_gui/mission_command_publisher.py`.

Modelling conventions.  Python `int` is modelled as `Int`, Python `str` as
`String`, Python `bool` as `Bool`, Python `None` through `Option`.  Python
`float` is modelled by exact rationals `Rat`; the program performs no float
arithmetic, it only parses decimal literals (`float(text)`) and prints values
(`str(value)`), and on the decimal-literal fragment handled here those
operations are exact.  Special float forms (`inf`, `nan`, exponent notation)
are outside this model.
-/

/-- Python runtime values that appear as parameter values in the widget:
payloads of type `int`, `float`, `bool` or `str`. -/
inductive Value where
  | vInt : Int → Value
  | vFloat : Rat → Value
  | vBool : Bool → Value
  | vStr : String → Value
deriving DecidableEq

/-- Numeric value of a list of decimal digit characters (most significant first). -/
def digitsVal (cs : List Char) : Nat :=
  cs.foldl (fun a c => a * 10 + (c.toNat - 48)) 0

/-- ASCII whitespace, the common fragment of what Python strips. -/
def isSpaceChar (c : Char) : Bool :=
  c == ' ' || c == '\t' || c == '\n' || c == '\r'

/-- Strip leading and trailing whitespace from a character list. -/
def trimChars (cs : List Char) : List Char :=
  ((cs.dropWhile isSpaceChar).reverse.dropWhile isSpaceChar).reverse

/-- Model of Python `str.lower()` on the ASCII fragment. -/
def pyLower (s : String) : String :=
  String.mk (s.data.map Char.toLower)

/-- Model of Python `int(text)` on a string: optional surrounding whitespace,
optional sign, then decimal digits; anything else raises `ValueError`
(modelled as `none`). -/
def parseIntStr (s : String) : Option Int :=
  let cs := trimChars s.data
  match cs with
  | '-' :: rest =>
      if !rest.isEmpty && rest.all Char.isDigit then some (-(digitsVal rest : Int)) else none
  | '+' :: rest =>
      if !rest.isEmpty && rest.all Char.isDigit then some ((digitsVal rest : Int)) else none
  | _ =>
      if !cs.isEmpty && cs.all Char.isDigit then some ((digitsVal cs : Int)) else none

/-- Unsigned decimal literal: digits, optionally followed by `.` and digits,
with at least one digit present. -/
def parseFloatCore (cs : List Char) : Option Rat :=
  let ip := cs.takeWhile Char.isDigit
  let rest := cs.dropWhile Char.isDigit
  match rest with
  | [] => if ip.isEmpty then none else some ((digitsVal ip : Rat))
  | '.' :: fp =>
      if fp.all Char.isDigit && !(ip.isEmpty && fp.isEmpty) then
        some ((digitsVal ip : Rat) + (digitsVal fp : Rat) / ((10 : Rat) ^ fp.length))
      else none
  | _ => none

/-- Model of Python `float(text)` on the decimal-literal fragment: optional
surrounding whitespace, optional sign, then a decimal literal.  Failure
(Python `ValueError`) is modelled as `none`. -/
def parseFloatStr (s : String) : Option Rat :=
  match trimChars s.data with
  | '-' :: cs => (parseFloatCore cs).map (fun q => -q)
  | '+' :: cs => parseFloatCore cs
  | cs => parseFloatCore cs

/-- Least `k` with `10 ^ k` divisible by `den`, when one exists below 40. -/
def natPow10Exp (den : Nat) : Option Nat :=
  (List.range 40).find? (fun k => 10 ^ k % den == 0)

/-- Left-pad a digit string with zeros up to width `k`. -/
def padZeros (s : String) (k : Nat) : String :=
  if s.length < k then String.mk (List.replicate (k - s.length) '0') ++ s else s

/-- Drop trailing `'0'` characters. -/
def stripZeros (s : String) : String :=
  String.mk ((s.toList.reverse.dropWhile (fun c => c == '0')).reverse)

/-- Model of Python `str(x)` on a float `x` whose value is an exact decimal:
minimal decimal digits with at least one fractional digit (Python prints
`2.75`, `3.0`, `-0.5`, ...). -/
def ratFloatStr (q : Rat) : String :=
  let sign := if q < 0 then "-" else ""
  let qa := if q < 0 then -q else q
  match natPow10Exp qa.den with
  | some k =>
      let scaled := qa.num.toNat * (10 ^ k / qa.den)
      let ipart := scaled / 10 ^ k
      let fpart := scaled % 10 ^ k
      let frac := stripZeros (padZeros (toString fpart) k)
      sign ++ toString ipart ++ "." ++ (if frac = "" then "0" else frac)
  | none => sign ++ toString qa.num ++ "/" ++ toString qa.den

/-- Model of Python `str(v)` for a parameter value. -/
def pyStrValue : Value → String
  | .vInt n => toString n
  | .vFloat q => ratFloatStr q
  | .vBool b => if b then "True" else "False"
  | .vStr s => s

/-- Model of Python `str(x)` where `x` may be `None`. -/
def pyStrOpt : Option Value → String
  | none => "None"
  | some v => pyStrValue v

/-- Python `type(value).__name__` for a parameter value. -/
def pyTypeName : Option Value → String
  | none => "NoneType"
  | some (.vInt _) => "int"
  | some (.vFloat _) => "float"
  | some (.vBool _) => "bool"
  | some (.vStr _) => "str"

/-- Embedding of `get_param_category` (parameter_tree_widget.py, lines 14-23):
normalize a free-form type label to one of the four categories. -/
def get_param_category (type_name : String) : String :=
  if pyLower type_name ∈ ["int", "integer", "int64"] then "int"
  else if pyLower type_name ∈ ["float", "double"] then "float"
  else if pyLower type_name ∈ ["bool", "boolean"] then "bool"
  else "str"

/-- Embedding of the `try` block of `ParameterTreeWidget.on_item_changed`
(lines 266-281): parse the committed display text according to the leaf
category; `none` models the raised `ValueError`. -/
def parseByCategory (category : String) (text : String) : Option Value :=
  if category = "int" then (parseIntStr text).map Value.vInt
  else if category = "float" then (parseFloatStr text).map Value.vFloat
  else if category = "bool" then
    if pyLower text ∈ ["true", "1", "yes", "on"] then some (Value.vBool true)
    else if pyLower text ∈ ["false", "0", "no", "off"] then some (Value.vBool false)
    else none
  else some (Value.vStr text)

/-- A Python value that is either a nested `dict` (insertion-ordered
association list, inlined as `dnil`/`dcons` chains) or a scalar parameter
value.  This is the shape of the `tree_structure` dictionary that
`ParameterTreeWidget._build_tree_from_paths` builds before handing it to
`_add_tree_structure`. -/
inductive PDict where
  | leafV : Value → PDict
  | dnil : PDict
  | dcons : String → PDict → PDict → PDict
deriving DecidableEq

/-- `d[k]` lookup in a dict (first matching key); `none` when `k` is absent or
`d` is not a dict. -/
def dictLookup : PDict → String → Option PDict
  | .dcons k t rest, key => if k = key then some t else dictLookup rest key
  | _, _ => none

/-- `d[k] = v` on a dict: overwrite in place when the key is present, append
at the end otherwise (Python dict insertion-order semantics).  On a scalar
this operation would raise a `TypeError`; `insertParts` below checks for the
scalar case before ever assigning, so that branch is unreachable and is given
the one-entry-dict meaning only to keep the function total. -/
def dictSet : PDict → String → PDict → PDict
  | .dnil, key, v => .dcons key v .dnil
  | .dcons k t rest, key, v =>
      if k = key then .dcons k v rest else .dcons k t (dictSet rest key v)
  | .leafV _, key, v => .dcons key v .dnil

/-- Characters of each segment of a dotted path (split on `'.'`, Python
`str.split('.')`: never empty, keeps empty segments). -/
def splitAux : List Char → List (List Char)
  | [] => [[]]
  | c :: cs =>
      let r := splitAux cs
      if c = '.' then [] :: r
      else
        match r with
        | s :: rest => (c :: s) :: rest
        | [] => [[c]]

/-- Model of `param_path.split('.')`. -/
def splitDot (s : String) : List String :=
  (splitAux s.data).map String.mk

/-- One iteration of the loop body of `_build_tree_from_paths` (lines 184-193):
walk `parts[:-1]` creating or reusing nested dicts, then assign the value at
the last segment.  Reaching a non-dict value while walking or assigning is a
Python `TypeError` (all parameter values here are scalars, on which both the
`in` test and item assignment raise); this is modelled as `none`. -/
def insertParts : PDict → List String → Value → Option PDict
  | _, [], _ => none
  | .leafV _, _ :: _, _ => none
  | d, [last], v => some (dictSet d last (.leafV v))
  | d, p :: rest, v =>
      let sub := match dictLookup d p with
        | some t => t
        | none => .dnil
      (insertParts sub rest v).map (fun t2 => dictSet d p t2)

/-- Embedding of `ParameterTreeWidget._build_tree_from_paths` (lines 181-195)
with an explicit accumulator: fold the flat mapping into the nested
`tree_structure`, propagating the error of any failed insertion. -/
def buildTreeFromPaths (d : PDict) : List (String × Value) → Option PDict
  | [] => some d
  | kv :: rest =>
      match insertParts d (splitDot kv.1) kv.2 with
      | some d2 => buildTreeFromPaths d2 rest
      | none => none

/-- The nested structure `set_yaml_parameters` builds from a flat mapping
(starting from the empty `tree_structure = {}`). -/
def buildYaml (kvs : List (String × Value)) : Option PDict :=
  buildTreeFromPaths .dnil kvs

/-- Full dotted-segment paths of the leaf items `_add_tree_structure`
(lines 197-209) creates for a nested structure: an entry whose value is not a
dict becomes a leaf at `path + [key]`; dict entries recurse. -/
def dictLeafPaths : PDict → List (List String)
  | .dcons k (.leafV _) rest => [k] :: dictLeafPaths rest
  | .dcons _ .dnil rest => dictLeafPaths rest
  | .dcons k (.dcons k2 t2 r2) rest =>
      (dictLeafPaths (.dcons k2 t2 r2)).map (fun q => k :: q) ++ dictLeafPaths rest
  | _ => []

/-- Full dotted-segment paths of the group items `_add_tree_structure` creates:
an entry whose value is a dict becomes a group at `path + [key]` and recurses. -/
def dictGroupPaths : PDict → List (List String)
  | .dcons _ (.leafV _) rest => dictGroupPaths rest
  | .dcons k .dnil rest => [k] :: dictGroupPaths rest
  | .dcons k (.dcons k2 t2 r2) rest =>
      [k] :: ((dictGroupPaths (.dcons k2 t2 r2)).map (fun q => k :: q) ++ dictGroupPaths rest)
  | _ => []

/-- The sub-structure found by walking a segment path from `d`. -/
def lookAt : PDict → List String → Option PDict
  | d, [] => some d
  | d, k :: rest =>
      match dictLookup d k with
      | some t => lookAt t rest
      | none => none

/-- Whether the position `q` holds a scalar leaf. -/
def leafAtB (d : PDict) (q : List String) : Bool :=
  match lookAt d q with
  | some (.leafV _) => true
  | _ => false

/-- Whether the position `q` holds a dict. -/
def dictAtB (d : PDict) (q : List String) : Bool :=
  match lookAt d q with
  | some (.leafV _) => false
  | some _ => true
  | none => false

/-- Whether a value is a dict (`isinstance(value, dict)`). -/
def isDict : PDict → Bool
  | .leafV _ => false
  | _ => true

/-- Whether a dict has an entry with the given key. -/
def hasKey : PDict → String → Bool
  | .dcons k _ rest, key => k == key || hasKey rest key
  | _, _ => false

/-- Well-formed dict spine with pairwise-distinct keys at every nesting
level: the tail of an entry chain is itself a chain (never a scalar) and no
key recurs. -/
def keysND : PDict → Bool
  | .dcons k t rest => !hasKey rest k && keysND t && isDict rest && keysND rest
  | _ => true

/-- `leads p q`: the segment list `p` is a (not necessarily proper) prefix
of `q`. -/
def leads : List String → List String → Bool
  | [], _ => true
  | _ :: _, [] => false
  | a :: as, b :: bs => a == b && leads as bs

/-- Pairwise prefix-freedom of a list of segment paths: no element is a
prefix (proper or equal) of another. -/
def pairwiseNoLeads : List (List String) → Bool
  | [] => true
  | p :: rest => rest.all (fun q => !leads p q && !leads q p) && pairwiseNoLeads rest

/-- Tree-widget column indices (class `Columns`). -/
def Columns.NAME : Nat := 0

/-- Value column index. -/
def Columns.VALUE : Nat := 1

/-- Type column index. -/
def Columns.TYPE : Nat := 2

/-- Observable state of one `QTreeWidgetItem` used by the widget: the three
column texts, the typed value stored under `EditRole` on the value column, and
the full dotted path stored under `UserRole` on the name column (`none` models
both group items, which never receive the role, and a Python `None` datum). -/
structure Item where
  nameText : String
  valueText : String
  typeText : String
  editValue : Option Value
  pathData : Option String
deriving DecidableEq

/-- One entry of the `self.parameters` snapshot: a Python dict with optional
`value` and `type` entries (`param_info.get('value')`, `param_info.get('type')`). -/
structure ParamInfo where
  value : Option Value
  ptype : Option String
deriving DecidableEq

/-- First-match association-list lookup: Python `dict.get` (keys are unique
in an actual dict). -/
def lookupAssoc {α : Type} : List (String × α) → String → Option α
  | [], _ => none
  | (k, a) :: rest, key => if k = key then some a else lookupAssoc rest key

/-- Replace the entry at `key` (first match) with a new item, modelling
in-place mutation of the shared `QTreeWidgetItem` object; a missing key leaves
the list unchanged. -/
def setItemAt : List (String × Item) → String → Item → List (String × Item)
  | [], _, _ => []
  | (k, a) :: rest, key, it =>
      if k = key then (k, it) :: rest else (k, a) :: setItemAt rest key it

/-- Mutable state of `ParameterTreeWidget` relevant to the claims: the
`param_to_item` index (path to leaf item), the `self.parameters` snapshot and
the `self.updating` re-entrancy flag. -/
structure Widget where
  paramToItem : List (String × Item)
  parameters : List (String × ParamInfo)
  updating : Bool
deriving DecidableEq

/-- Embedding of `ParameterTreeWidget.on_item_changed` (lines 254-292), the
slot connected to `itemChanged`.  Inputs are the flag and snapshot read from
`self` and the changed item with its column; the result is the (possibly
reverted) item together with the list of `parameter_changed` emissions this
invocation performs.  The nested `setText` on the revert path runs with
`self.updating = True`, so the signal it re-triggers does nothing; the revert
is therefore modelled as the plain text update. -/
def onItemChanged (updating : Bool) (params : List (String × ParamInfo))
    (it : Item) (column : Nat) : Item × List (String × Value) :=
  if updating || column != Columns.VALUE then (it, [])
  else
    match it.pathData with
    | none => (it, [])
    | some path =>
      if path = "" then (it, [])
      else
        match parseByCategory (get_param_category it.typeText) it.valueText with
        | some v => (it, [(path, v)])
        | none =>
            let prev : Option Value :=
              match it.editValue with
              | some pv => some pv
              | none => (lookupAssoc params path).bind ParamInfo.value
            ({ it with valueText := pyStrOpt prev }, [])

/-- Editor widgets `ParameterItemDelegate.createEditor` can hand back for the
value column, carrying the state read out of them on commit:
`QSpinBox.value()`, `QDoubleSpinBox.value()`, the checkbox of the boolean
container, or `QLineEdit.text()`. -/
inductive Editor where
  | spin : Int → Editor
  | dspin : Rat → Editor
  | boolBox : Bool → Editor
  | lineEdit : String → Editor

/-- Embedding of `ParameterItemDelegate.setModelData` (lines 102-127): read
the editor's value, then store the typed value under `EditRole` and its
string form under `DisplayRole` of the value column. -/
def setModelData (ed : Editor) (it : Item) (column : Nat) : Item :=
  if column != Columns.VALUE then it
  else
    match ed with
    | .spin n => { it with editValue := some (.vInt n), valueText := toString n }
    | .dspin q => { it with editValue := some (.vFloat q), valueText := ratFloatStr q }
    | .boolBox b =>
        { it with editValue := some (.vBool b), valueText := if b then "True" else "False" }
    | .lineEdit t => { it with editValue := some (.vStr t), valueText := t }

/-- A user commit on the value column: the delegate writes the editor state
back to the model (`setModelData`), and the resulting `itemChanged` signal
runs `on_item_changed` once with `self.updating = False`. -/
def commitEdit (params : List (String × ParamInfo)) (ed : Editor) (it : Item) :
    Item × List (String × Value) :=
  onItemChanged false params (setModelData ed it Columns.VALUE) Columns.VALUE

/-- Embedding of the item construction in
`ParameterTreeWidget._add_parameter_item` (lines 211-226): column texts, the
`EditRole` value, and the `UserRole` path (the full path when truthy, else the
parameter name). -/
def addParameterItem (param_name : String) (param_info : ParamInfo)
    (full_path : Option String) : Item :=
  let value := param_info.value
  let param_type := param_info.ptype.getD (pyTypeName value)
  { nameText := param_name
    valueText := pyStrOpt value
    typeText := param_type
    editValue := value
    pathData := some (match full_path with
      | some p => if p = "" then param_name else p
      | none => param_name) }

/-- One iteration of the `update_parameter_values` loop body (lines 241-250)
on an indexed item: compare the new value's string form with the displayed
text; when different, `setText` then `setData(EditRole)`.  Each of the two
mutations re-triggers `itemChanged`, here invoked with the `updating` flag in
force during the loop; the emissions of both invocations are collected. -/
def applyUpdate (updating : Bool) (params : List (String × ParamInfo))
    (it : Item) (info : ParamInfo) : Item × List (String × Value) :=
  if pyStrOpt info.value != it.valueText then
    let it1 := { it with valueText := pyStrOpt info.value }
    let r1 := onItemChanged updating params it1 Columns.VALUE
    let it2 := { r1.1 with editValue := info.value }
    let r2 := onItemChanged updating params it2 Columns.VALUE
    (r2.1, r1.2 ++ r2.2)
  else (it, [])

/-- The loop of `update_parameter_values` over the supplied mapping: update
each path present in `param_to_item`, skip the rest. -/
def runUpdates (params : List (String × ParamInfo)) (m : List (String × Item)) :
    List (String × ParamInfo) → List (String × Item) × List (String × Value)
  | [] => (m, [])
  | (k, info) :: rest =>
      match lookupAssoc m k with
      | some it =>
          let r := applyUpdate true params it info
          let r2 := runUpdates params (setItemAt m k r.1) rest
          (r2.1, r.2 ++ r2.2)
      | none => runUpdates params m rest

/-- Embedding of `ParameterTreeWidget.update_parameter_values` (lines 239-252):
set `self.updating`, run the loop, clear the flag.  The second component
collects every `parameter_changed` emission performed during the call. -/
def updateParameterValues (w : Widget) (updates : List (String × ParamInfo)) :
    Widget × List (String × Value) :=
  let r := runUpdates w.parameters w.paramToItem updates
  ({ w with paramToItem := r.1, updating := false }, r.2)

/-- Keys of an update mapping are pairwise distinct (true of every Python
dict argument). -/
def noDupKeys : List (String × ParamInfo) → Bool
  | [] => true
  | (k, _) :: rest => !(rest.any (fun kv => kv.1 == k)) && noDupKeys rest

/-- The `okmr_msgs/msg/MissionCommand` message: a single integer field.
As for every ROS 2 message, an explicitly unset numeric field defaults to 0,
so `MissionCommand()` constructs the message with `command = 0`. -/
structure MissionCommand where
  command : Int
deriving DecidableEq

/-- Embedding of `MissionCommandPublisher.sub_callback`
(mission_command_publisher.py, lines 20-27).  The body immediately rebinds
`msg` to a freshly constructed `MissionCommand()` — shadowing the received
message — and only then reads `msg.command`; the branch taken therefore
depends on the fresh message's default field, never on the input.  The
returned value is the single message passed to `self.publisher_.publish`. -/
def sub_callback (_incoming : MissionCommand) : MissionCommand :=
  let msg : MissionCommand := { command := 0 }
  if msg.command == 1 then { msg with command := 2 } else { msg with command := 1 }

/-- The float parameter of the C2 scenario:
`{"speed": {"value": 1.5, "type": "float"}}`. -/
def speedInfo : ParamInfo := { value := some (.vFloat ((3 : Rat) / 2)), ptype := some "float" }

/-- The leaf item `_add_parameter_item` builds for `"speed"`. -/
def speedItem : Item := addParameterItem "speed" speedInfo none

/-- A boolean leaf whose displayed text has been edited to `"maybe"`. -/
def flagItem : Item :=
  { nameText := "flag", valueText := "maybe", typeText := "bool",
    editValue := some (.vBool true), pathData := some "flag" }

/-- An indexed integer leaf displaying `"2"` with cached value 2. -/
def itemA : Item :=
  { nameText := "a", valueText := "2", typeText := "int",
    editValue := some (.vInt 2), pathData := some "a" }

/-- C3: the claim says the callback flips the received command (1 ↦ 2, 2 ↦ 1).
The code instead discards the received message (`msg = MissionCommand()`)
before reading `command`, so it publishes `command = 1` for every input; in
particular receiving `command = 1` publishes `command = 1`, not 2.  This
theorem evaluates the embedded callback at both inputs named by the claim. -/
theorem C3_sub_callback_ignores_input :
    sub_callback { command := 1 } = { command := 1 } ∧
    sub_callback { command := 2 } = { command := 1 } :=
  ⟨rfl, rfl⟩

/-- C9: the published output of `sub_callback` is independent of the received
message — the handler overwrites the received message with a freshly
constructed `MissionCommand` (default `command = 0`) before reading the
`command` field, so any two incoming messages produce identical outputs. -/
theorem C9_sub_callback_constant :
    ∀ m1 m2 : MissionCommand, sub_callback m1 = sub_callback m2 := by
  intro m1 m2
  rfl

/-- C5: `get_param_category` is total and case-insensitive: every string is
mapped to one of the four categories, the recognized alias groups map to
`"int"`, `"float"` and `"bool"` respectively, every unrecognized label maps
to `"str"`, and in particular `"Int64" ↦ "int"`, `"DOUBLE" ↦ "float"`,
`"widget" ↦ "str"`. -/
theorem C5_get_param_category_total :
    (∀ s : String,
      get_param_category s = "int" ∨ get_param_category s = "float" ∨
      get_param_category s = "bool" ∨ get_param_category s = "str") ∧
    (∀ s : String, pyLower s ∈ ["int", "integer", "int64"] → get_param_category s = "int") ∧
    (∀ s : String, pyLower s ∈ ["float", "double"] → get_param_category s = "float") ∧
    (∀ s : String, pyLower s ∈ ["bool", "boolean"] → get_param_category s = "bool") ∧
    (∀ s : String,
      pyLower s ∉ ["int", "integer", "int64", "float", "double", "bool", "boolean"] →
      get_param_category s = "str") ∧
    get_param_category "Int64" = "int" ∧
    get_param_category "DOUBLE" = "float" ∧
    get_param_category "widget" = "str" := by
  refine ⟨?_, ?_, ?_, ?_, ?_, by decide, by decide, by decide⟩
  · intro s
    unfold get_param_category
    split
    · exact Or.inl rfl
    split
    · exact Or.inr (Or.inl rfl)
    split
    · exact Or.inr (Or.inr (Or.inl rfl))
    · exact Or.inr (Or.inr (Or.inr rfl))
  · intro s h
    unfold get_param_category
    rw [if_pos h]
  · intro s h
    have h1 : pyLower s ∉ (["int", "integer", "int64"] : List String) := by
      simp at h ⊢
      rcases h with h | h <;> simp [h]
    unfold get_param_category
    rw [if_neg h1, if_pos h]
  · intro s h
    have h1 : pyLower s ∉ (["int", "integer", "int64"] : List String) := by
      simp at h ⊢
      rcases h with h | h <;> simp [h]
    have h2 : pyLower s ∉ (["float", "double"] : List String) := by
      simp at h ⊢
      rcases h with h | h <;> simp [h]
    unfold get_param_category
    rw [if_neg h1, if_neg h2, if_pos h]
  · intro s h
    simp at h
    obtain ⟨h1, h2, h3, h4, h5, h6, h7⟩ := h
    unfold get_param_category
    rw [if_neg (by simp [h1, h2, h3]), if_neg (by simp [h4, h5]), if_neg (by simp [h6, h7])]

/-- Instantiation of the C5 hypotheses at concrete labels: one alias from each
recognized group and one unrecognized label. -/
theorem C5_get_param_category_total_witness :
    (pyLower "INTEGER" ∈ ["int", "integer", "int64"] ∧
      get_param_category "INTEGER" = "int") ∧
    (pyLower "Double" ∈ ["float", "double"] ∧
      get_param_category "Double" = "float") ∧
    (pyLower "BOOLEAN" ∈ ["bool", "boolean"] ∧
      get_param_category "BOOLEAN" = "bool") ∧
    (pyLower "xyz" ∉
        ["int", "integer", "int64", "float", "double", "bool", "boolean"] ∧
      get_param_category "xyz" = "str") :=
  ⟨⟨by decide, C5_get_param_category_total.2.1 "INTEGER" (by decide)⟩,
   ⟨by decide, C5_get_param_category_total.2.2.1 "Double" (by decide)⟩,
   ⟨by decide, C5_get_param_category_total.2.2.2.1 "BOOLEAN" (by decide)⟩,
   ⟨by decide, C5_get_param_category_total.2.2.2.2.1 "xyz" (by decide)⟩⟩


/-! Helper lemmas about the edit and refresh paths. -/

theorem onItemChanged_true (params : List (String × ParamInfo)) (it : Item) (column : Nat) :
    onItemChanged true params it column = (it, []) := rfl

theorem setModelData_pathData (ed : Editor) (it : Item) :
    (setModelData ed it Columns.VALUE).pathData = it.pathData := by
  cases ed <;> rfl

theorem setModelData_typeText (ed : Editor) (it : Item) :
    (setModelData ed it Columns.VALUE).typeText = it.typeText := by
  cases ed <;> rfl

theorem onItemChanged_success (params : List (String × ParamInfo)) (it : Item)
    (path : String) (v : Value) (hpath : it.pathData = some path) (hne : path ≠ "")
    (hparse : parseByCategory (get_param_category it.typeText) it.valueText = some v) :
    onItemChanged false params it Columns.VALUE = (it, [(path, v)]) := by
  simp [onItemChanged, hpath, hne, hparse]

/-- C2: for every successful commit of an edit on a leaf (an item carrying a
nonempty full path under `UserRole`), the commit pipeline — `setModelData`
writing the editor state to the model, then the `itemChanged` signal running
`on_item_changed` — emits exactly one `parameter_changed` event, carrying the
leaf's full path and the value parsed into the leaf's category (a typed
`Value`, not the raw display string). -/
theorem C2_commit_emits_one_event (params : List (String × ParamInfo)) (ed : Editor)
    (it : Item) (path : String) (v : Value) (hpath : it.pathData = some path)
    (hne : path ≠ "")
    (hparse : parseByCategory (get_param_category it.typeText)
      (setModelData ed it Columns.VALUE).valueText = some v) :
    (commitEdit params ed it).2 = [(path, v)] := by
  unfold commitEdit
  rw [onItemChanged_success params _ path v
    (by rw [setModelData_pathData, hpath]) hne
    (by rw [setModelData_typeText]; exact hparse)]



/-- C2 instantiated at the spec's scenario: editing the `"speed"` cell to
`"2.75"` (a `QDoubleSpinBox` commit) emits exactly `("speed", 2.75)` with the
value a float. -/
theorem C2_commit_emits_one_event_witness :
    (speedItem.pathData = some "speed" ∧ ("speed" : String) ≠ "" ∧
      parseByCategory (get_param_category speedItem.typeText)
        (setModelData (Editor.dspin ((11 : Rat) / 4)) speedItem Columns.VALUE).valueText =
        some (Value.vFloat ((11 : Rat) / 4))) ∧
    (commitEdit [("speed", speedInfo)] (Editor.dspin ((11 : Rat) / 4)) speedItem).2 =
      [("speed", Value.vFloat ((11 : Rat) / 4))] := by
  refine ⟨⟨?_, ?_, ?_⟩, ?_⟩
  · with_unfolding_all decide
  · decide
  · with_unfolding_all decide
  · exact C2_commit_emits_one_event _ _ _ _ _ (by with_unfolding_all decide) (by decide)
      (by with_unfolding_all decide)

/-- C4: when the committed text fails to parse into the leaf's category, the
displayed text is restored to the previous-accepted value — taken from the
`EditRole` cache on the leaf, or from the `self.parameters` snapshot when no
cache exists — the cached value is unchanged, and no `parameter_changed`
event is emitted. -/
theorem C4_reject_restores_previous (params : List (String × ParamInfo)) (it : Item)
    (path : String) (hpath : it.pathData = some path) (hne : path ≠ "")
    (hparse : parseByCategory (get_param_category it.typeText) it.valueText = none) :
    onItemChanged false params it Columns.VALUE =
      ({ it with valueText := pyStrOpt (match it.editValue with
          | some pv => some pv
          | none => (lookupAssoc params path).bind ParamInfo.value) }, []) ∧
    (onItemChanged false params it Columns.VALUE).1.editValue = it.editValue ∧
    (onItemChanged false params it Columns.VALUE).2 = [] := by
  have h : onItemChanged false params it Columns.VALUE =
      ({ it with valueText := pyStrOpt (match it.editValue with
          | some pv => some pv
          | none => (lookupAssoc params path).bind ParamInfo.value) }, []) := by
    simp [onItemChanged, hpath, hne, hparse]
  refine ⟨h, ?_, ?_⟩ <;> rw [h]


/-- C4 instantiated at the spec's scenario: the text `"maybe"` on a boolean
leaf is rejected, the display reverts to the cached `True`, the cache is
untouched and nothing is emitted. -/
theorem C4_reject_restores_previous_witness :
    (flagItem.pathData = some "flag" ∧ ("flag" : String) ≠ "" ∧
      parseByCategory (get_param_category flagItem.typeText) flagItem.valueText = none) ∧
    (onItemChanged false [] flagItem Columns.VALUE =
        ({ flagItem with valueText := "True" }, []) ∧
      (onItemChanged false [] flagItem Columns.VALUE).1.editValue = flagItem.editValue ∧
      (onItemChanged false [] flagItem Columns.VALUE).2 = []) := by
  refine ⟨⟨rfl, by decide, by decide⟩, ?_⟩
  exact C4_reject_restores_previous [] flagItem "flag" rfl (by decide) (by decide)

theorem applyUpdate_true_eq (params : List (String × ParamInfo)) (it : Item)
    (info : ParamInfo) :
    applyUpdate true params it info =
      (if pyStrOpt info.value = it.valueText then it
       else { it with valueText := pyStrOpt info.value, editValue := info.value }, []) := by
  by_cases h : pyStrOpt info.value = it.valueText
  · simp [applyUpdate, h]
  · simp [applyUpdate, h, onItemChanged_true]

theorem applyUpdate_fst (params : List (String × ParamInfo)) (it : Item)
    (info : ParamInfo) :
    (applyUpdate true params it info).1 =
      if pyStrOpt info.value = it.valueText then it
      else { it with valueText := pyStrOpt info.value, editValue := info.value } := by
  rw [applyUpdate_true_eq]

theorem runUpdates_no_events (params : List (String × ParamInfo)) :
    ∀ (u : List (String × ParamInfo)) (m : List (String × Item)),
      (runUpdates params m u).2 = [] := by
  intro u
  induction u with
  | nil => intro m; rfl
  | cons kv rest ih =>
      intro m
      obtain ⟨k, info⟩ := kv
      cases h : lookupAssoc m k with
      | some it => simp [runUpdates, h, applyUpdate_true_eq, ih]
      | none => simp [runUpdates, h, ih]

/-- C6: a call to `update_parameter_values` never emits a `parameter_changed`
event, for every update mapping and every widget state: the `self.updating`
guard is in force for the whole loop, so every `itemChanged` signal triggered
by the programmatic writes is suppressed by `on_item_changed`. -/
theorem C6_refresh_emits_nothing (w : Widget) (updates : List (String × ParamInfo)) :
    (updateParameterValues w updates).2 = [] := by
  unfold updateParameterValues
  simp [runUpdates_no_events]

theorem lookupAssoc_setItemAt_self (m : List (String × Item)) (k : String) (it x : Item)
    (h : lookupAssoc m k = some x) : lookupAssoc (setItemAt m k it) k = some it := by
  induction m with
  | nil => simp [lookupAssoc] at h
  | cons kv rest ih =>
      obtain ⟨k2, a⟩ := kv
      by_cases hk : k2 = k
      · simp [lookupAssoc, setItemAt, hk]
      · simp only [lookupAssoc, setItemAt, if_neg hk] at h ⊢
        exact ih h

theorem lookupAssoc_setItemAt_other (m : List (String × Item)) (k k2 : String) (it : Item)
    (h : k2 ≠ k) : lookupAssoc (setItemAt m k it) k2 = lookupAssoc m k2 := by
  induction m with
  | nil => rfl
  | cons kv rest ih =>
      obtain ⟨k3, a⟩ := kv
      by_cases hk : k3 = k
      · have hne : k3 ≠ k2 := fun hh => h (hh.symm.trans hk)
        simp [setItemAt, lookupAssoc, hk, hne, Ne.symm h]
      · by_cases hk2 : k3 = k2
        · simp [setItemAt, lookupAssoc, hk, hk2, h]
        · simp [setItemAt, lookupAssoc, hk, hk2, ih]

theorem setItemAt_self_eq (m : List (String × Item)) (k : String) (x : Item)
    (h : lookupAssoc m k = some x) : setItemAt m k x = m := by
  induction m with
  | nil => rfl
  | cons kv rest ih =>
      obtain ⟨k2, a⟩ := kv
      by_cases hk : k2 = k
      · simp only [lookupAssoc, if_pos hk] at h
        simp only [setItemAt, if_pos hk, h]
        injection h with h
        rw [h]
      · simp only [lookupAssoc, if_neg hk] at h
        simp [setItemAt, hk, ih h]

theorem setItemAt_keys (m : List (String × Item)) (k : String) (it : Item) :
    (setItemAt m k it).map Prod.fst = m.map Prod.fst := by
  induction m with
  | nil => rfl
  | cons kv rest ih =>
      obtain ⟨k2, a⟩ := kv
      by_cases hk : k2 = k
      · simp [setItemAt, hk]
      · simp [setItemAt, hk, ih]

theorem runUpdates_lookup_other (params : List (String × ParamInfo)) :
    ∀ (u : List (String × ParamInfo)) (m : List (String × Item)) (k : String),
      u.any (fun kv => kv.1 == k) = false →
      lookupAssoc (runUpdates params m u).1 k = lookupAssoc m k := by
  intro u
  induction u with
  | nil => intro m k _; rfl
  | cons kv rest ih =>
      intro m k hu
      obtain ⟨k2, info⟩ := kv
      simp only [List.any_cons, Bool.or_eq_false_iff, beq_eq_false_iff_ne] at hu
      obtain ⟨hne, hrest⟩ := hu
      cases h : lookupAssoc m k2 with
      | some it =>
          simp only [runUpdates, h]
          rw [ih _ k hrest]
          exact lookupAssoc_setItemAt_other _ _ _ _ (Ne.symm hne)
      | none =>
          simp only [runUpdates, h]
          exact ih _ k hrest

theorem applyUpdate_true_idem (params : List (String × ParamInfo)) (it : Item)
    (info : ParamInfo) :
    applyUpdate true params (applyUpdate true params it info).1 info =
      ((applyUpdate true params it info).1, []) := by
  by_cases h : pyStrOpt info.value = it.valueText
  · simp [applyUpdate_fst, applyUpdate_true_eq, h]
  · simp [applyUpdate_fst, applyUpdate_true_eq, h]

theorem runUpdates_idem (params : List (String × ParamInfo)) :
    ∀ (u : List (String × ParamInfo)) (m : List (String × Item)), noDupKeys u = true →
      (runUpdates params (runUpdates params m u).1 u).1 = (runUpdates params m u).1 := by
  intro u
  induction u with
  | nil => intro m _; rfl
  | cons kv rest ih =>
      intro m hd
      obtain ⟨k, info⟩ := kv
      simp only [noDupKeys, Bool.and_eq_true, Bool.not_eq_true'] at hd
      obtain ⟨hk, hrest⟩ := hd
      cases h : lookupAssoc m k with
      | none =>
          have e1 : (runUpdates params m ((k, info) :: rest)).1
              = (runUpdates params m rest).1 := by
            simp [runUpdates, h]
          rw [e1]
          have hM : lookupAssoc (runUpdates params m rest).1 k = none := by
            rw [runUpdates_lookup_other params rest m k hk, h]
          have e2 : (runUpdates params (runUpdates params m rest).1 ((k, info) :: rest)).1
              = (runUpdates params (runUpdates params m rest).1 rest).1 := by
            simp [runUpdates, hM]
          rw [e2]
          exact ih m hrest
      | some it =>
          have e1 : (runUpdates params m ((k, info) :: rest)).1
              = (runUpdates params
                  (setItemAt m k (applyUpdate true params it info).1) rest).1 := by
            simp [runUpdates, h]
          rw [e1]
          have hMk : lookupAssoc
              (runUpdates params (setItemAt m k (applyUpdate true params it info).1) rest).1 k
              = some (applyUpdate true params it info).1 := by
            rw [runUpdates_lookup_other params rest _ k hk]
            exact lookupAssoc_setItemAt_self m k _ it h
          have e2 : (runUpdates params
                (runUpdates params (setItemAt m k (applyUpdate true params it info).1) rest).1
                ((k, info) :: rest)).1
              = (runUpdates params
                  (setItemAt
                    (runUpdates params
                      (setItemAt m k (applyUpdate true params it info).1) rest).1
                    k
                    (applyUpdate true params (applyUpdate true params it info).1 info).1)
                  rest).1 := by
            simp [runUpdates, hMk]
          rw [e2, applyUpdate_true_idem, setItemAt_self_eq _ k _ hMk]
          exact ih (setItemAt m k (applyUpdate true params it info).1) hrest

/-- C7: the refresh path is idempotent.  First, per leaf: when the displayed
string already equals the string form of the supplied value, the loop body of
`update_parameter_values` performs no display mutation, no cached-value
mutation, and emits nothing.  Second, for the whole call: applying the same
refresh twice (same update mapping, distinct keys as in any Python dict)
equals applying it once. -/
theorem C7_refresh_idempotent :
    (∀ (params : List (String × ParamInfo)) (it : Item) (info : ParamInfo),
      pyStrOpt info.value = it.valueText → applyUpdate true params it info = (it, [])) ∧
    (∀ (w : Widget) (updates : List (String × ParamInfo)), noDupKeys updates = true →
      updateParameterValues (updateParameterValues w updates).1 updates =
        updateParameterValues w updates) := by
  constructor
  · intro params it info h
    rw [applyUpdate_true_eq, if_pos h]
  · intro w u hnd
    have hI := runUpdates_idem w.parameters u w.paramToItem hnd
    simp [updateParameterValues, runUpdates_no_events, hI]


/-- C7 instantiated: refreshing with value 2 while `"2"` is displayed is a
per-leaf no-op, and running the one-entry refresh twice equals running it
once on a concrete one-leaf widget. -/
theorem C7_refresh_idempotent_witness :
    (pyStrOpt (ParamInfo.mk (some (.vInt 2)) none).value = itemA.valueText ∧
      applyUpdate true [] itemA (ParamInfo.mk (some (.vInt 2)) none) = (itemA, [])) ∧
    (noDupKeys [("a", ParamInfo.mk (some (.vInt 3)) none)] = true ∧
      updateParameterValues
          (updateParameterValues
            (Widget.mk [("a", itemA)] [] false)
            [("a", ParamInfo.mk (some (.vInt 3)) none)]).1
          [("a", ParamInfo.mk (some (.vInt 3)) none)] =
        updateParameterValues (Widget.mk [("a", itemA)] [] false)
          [("a", ParamInfo.mk (some (.vInt 3)) none)]) := by
  refine ⟨⟨?_, ?_⟩, ⟨?_, ?_⟩⟩
  · decide
  · exact C7_refresh_idempotent.1 [] itemA (ParamInfo.mk (some (.vInt 2)) none) (by decide)
  · decide
  · exact C7_refresh_idempotent.2 (Widget.mk [("a", itemA)] [] false)
      [("a", ParamInfo.mk (some (.vInt 3)) none)] (by decide)

theorem runUpdates_keys (params : List (String × ParamInfo)) :
    ∀ (u : List (String × ParamInfo)) (m : List (String × Item)),
      (runUpdates params m u).1.map Prod.fst = m.map Prod.fst := by
  intro u
  induction u with
  | nil => intro m; rfl
  | cons kv rest ih =>
      intro m
      obtain ⟨k, info⟩ := kv
      cases h : lookupAssoc m k with
      | some it => simp [runUpdates, h, ih, setItemAt_keys]
      | none => simp [runUpdates, h, ih]

theorem applyUpdate_preserves (params : List (String × ParamInfo)) (it : Item)
    (info : ParamInfo) :
    (applyUpdate true params it info).1.nameText = it.nameText ∧
    (applyUpdate true params it info).1.typeText = it.typeText ∧
    (applyUpdate true params it info).1.pathData = it.pathData := by
  rw [applyUpdate_fst]
  split <;> exact ⟨rfl, rfl, rfl⟩

theorem runUpdates_fields (params : List (String × ParamInfo)) :
    ∀ (u : List (String × ParamInfo)) (m : List (String × Item)) (k : String) (it2 : Item),
      lookupAssoc (runUpdates params m u).1 k = some it2 →
      ∃ it1, lookupAssoc m k = some it1 ∧ it2.nameText = it1.nameText ∧
        it2.typeText = it1.typeText ∧ it2.pathData = it1.pathData := by
  intro u
  induction u with
  | nil => intro m k it2 h; exact ⟨it2, h, rfl, rfl, rfl⟩
  | cons kv rest ih =>
      intro m k it2 h
      obtain ⟨k2, info⟩ := kv
      cases h2 : lookupAssoc m k2 with
      | none =>
          simp only [runUpdates, h2] at h
          exact ih m k it2 h
      | some it =>
          simp only [runUpdates, h2] at h
          obtain ⟨it1, hl, hn, ht, hp⟩ := ih _ k it2 h
          by_cases hk : k2 = k
          · subst hk
            rw [lookupAssoc_setItemAt_self m k2 _ it h2] at hl
            injection hl with hl
            obtain ⟨pn, pt, pp⟩ := applyUpdate_preserves params it info
            exact ⟨it, h2, by rw [hn, ← hl, pn], by rw [ht, ← hl, pt], by rw [hp, ← hl, pp]⟩
          · rw [lookupAssoc_setItemAt_other m k2 k _ (fun hh => hk hh.symm)] at hl
            exact ⟨it1, hl, hn, ht, hp⟩

/-- C8: `update_parameter_values` never creates or removes leaves: the key
sequence of the `param_to_item` index (hence the leaf count) is unchanged by
the call, paths absent from the index are ignored, and every indexed item
keeps its name, type and path — only the value column and cached value may
change. -/
theorem C8_refresh_creates_nothing :
    (∀ (w : Widget) (updates : List (String × ParamInfo)),
      (updateParameterValues w updates).1.paramToItem.map Prod.fst =
        w.paramToItem.map Prod.fst) ∧
    (∀ (w : Widget) (updates : List (String × ParamInfo)),
      (updateParameterValues w updates).1.paramToItem.length = w.paramToItem.length) ∧
    (∀ (w : Widget) (updates : List (String × ParamInfo)) (k : String) (it2 : Item),
      lookupAssoc (updateParameterValues w updates).1.paramToItem k = some it2 →
      ∃ it1, lookupAssoc w.paramToItem k = some it1 ∧ it2.nameText = it1.nameText ∧
        it2.typeText = it1.typeText ∧ it2.pathData = it1.pathData) := by
  refine ⟨?_, ?_, ?_⟩
  · intro w u
    simp [updateParameterValues, runUpdates_keys]
  · intro w u
    have h := runUpdates_keys w.parameters u w.paramToItem
    have := congrArg List.length h
    simpa [updateParameterValues] using this
  · intro w u k it2 h
    exact runUpdates_fields w.parameters u w.paramToItem k it2 h

/-- C8 instantiated: refreshing a one-leaf widget with a mapping naming only
an absent path leaves the index unchanged; the surviving entry keeps its
name, type and path. -/
theorem C8_refresh_creates_nothing_witness :
    (updateParameterValues (Widget.mk [("a", itemA)] [] false)
        [("ghost", ParamInfo.mk (some (.vInt 9)) none)]).1.paramToItem.map Prod.fst =
      ["a"] ∧
    (lookupAssoc (updateParameterValues (Widget.mk [("a", itemA)] [] false)
        [("ghost", ParamInfo.mk (some (.vInt 9)) none)]).1.paramToItem "a" = some itemA ∧
      ∃ it1, lookupAssoc [("a", itemA)] "a" = some it1 ∧ itemA.nameText = it1.nameText ∧
        itemA.typeText = it1.typeText ∧ itemA.pathData = it1.pathData) := by
  refine ⟨by decide, ⟨by decide, ?_⟩⟩
  exact C8_refresh_creates_nothing.2.2 (Widget.mk [("a", itemA)] [] false)
    [("ghost", ParamInfo.mk (some (.vInt 9)) none)] "a" itemA (by decide)

/-! Helper lemmas for the dotted-path tree builder. -/

theorem leads_refl : ∀ p : List String, leads p p = true := by
  intro p
  induction p with
  | nil => rfl
  | cons a as ih => simp [leads, ih]

theorem leads_trans : ∀ p q r : List String,
    leads p q = true → leads q r = true → leads p r = true := by
  intro p
  induction p with
  | nil => intro q r _ _; rfl
  | cons a as ih =>
      intro q r hpq hqr
      cases q with
      | nil => simp [leads] at hpq
      | cons b bs =>
          cases r with
          | nil => simp [leads] at hqr
          | cons c cs =>
              simp only [leads, Bool.and_eq_true, beq_iff_eq] at hpq hqr ⊢
              exact ⟨hpq.1.trans hqr.1, ih bs cs hpq.2 hqr.2⟩

theorem leads_length : ∀ p q : List String, leads p q = true → p.length ≤ q.length := by
  intro p
  induction p with
  | nil => intro q _; simp
  | cons a as ih =>
      intro q h
      cases q with
      | nil => simp [leads] at h
      | cons b bs =>
          simp only [leads, Bool.and_eq_true] at h
          simpa using ih bs h.2

theorem leads_eq_of_length : ∀ p q : List String,
    leads p q = true → q.length ≤ p.length → p = q := by
  intro p
  induction p with
  | nil =>
      intro q _ hl
      cases q with
      | nil => rfl
      | cons b bs => simp at hl
  | cons a as ih =>
      intro q h hl
      cases q with
      | nil => simp [leads] at h
      | cons b bs =>
          simp only [leads, Bool.and_eq_true, beq_iff_eq] at h
          simp only [List.length_cons, Nat.succ_le_succ_iff] at hl
          rw [h.1, ih bs h.2 hl]

theorem leads_antisymm (p q : List String) (h1 : leads p q = true) (h2 : leads q p = true) :
    p = q :=
  leads_eq_of_length p q h1 (leads_length q p h2)

theorem leads_append : ∀ p q : List String, leads p q = true → ∃ t, q = p ++ t := by
  intro p
  induction p with
  | nil => intro q _; exact ⟨q, rfl⟩
  | cons a as ih =>
      intro q h
      cases q with
      | nil => simp [leads] at h
      | cons b bs =>
          simp only [leads, Bool.and_eq_true, beq_iff_eq] at h
          obtain ⟨t, ht⟩ := ih bs h.2
          exact ⟨t, by rw [← h.1, ht]; rfl⟩

theorem leads_cons (a b : String) (as bs : List String) :
    leads (a :: as) (b :: bs) = true ↔ a = b ∧ leads as bs = true := by
  simp [leads]

theorem splitAux_ne_nil : ∀ cs : List Char, splitAux cs ≠ [] := by
  intro cs
  induction cs with
  | nil => simp [splitAux]
  | cons c cs ih =>
      simp only [splitAux]
      split
      · simp
      · cases h : splitAux cs with
        | nil => exact absurd h ih
        | cons s rest => simp [h]

theorem splitDot_ne_nil (s : String) : splitDot s ≠ [] := by
  unfold splitDot
  intro h
  exact splitAux_ne_nil s.data (List.map_eq_nil_iff.mp h)

theorem lookAt_leafV (v : Value) (k : String) (qs : List String) :
    lookAt (.leafV v) (k :: qs) = none := rfl

theorem lookAt_dnil (k : String) (qs : List String) :
    lookAt .dnil (k :: qs) = none := rfl

theorem lookAt_append : ∀ (p q : List String) (d : PDict),
    lookAt d (p ++ q) = match lookAt d p with
      | some t => lookAt t q
      | none => none := by
  intro p
  induction p with
  | nil => intro q d; rfl
  | cons k ps ih =>
      intro q d
      simp only [List.cons_append, lookAt]
      cases dictLookup d k with
      | some t => exact ih q t
      | none => rfl

theorem dictAtB_not_leafAtB (d : PDict) (q : List String) (h : dictAtB d q = true) :
    leafAtB d q = false := by
  unfold dictAtB at h
  unfold leafAtB
  cases hl : lookAt d q with
  | none => rfl
  | some t =>
      rw [hl] at h
      cases t <;> simp_all

theorem dictLookup_dictSet_self (d : PDict) (k : String) (v : PDict) :
    dictLookup (dictSet d k v) k = some v := by
  induction d with
  | leafV w => simp [dictSet, dictLookup]
  | dnil => simp [dictSet, dictLookup]
  | dcons k2 t rest iht ihrest =>
      by_cases hk : k2 = k
      · simp [dictSet, dictLookup, hk]
      · simp only [dictSet, if_neg hk, dictLookup, if_neg hk]
        exact ihrest

theorem dictLookup_dictSet_other (d : PDict) (k k2 : String) (v : PDict)
    (h : k2 ≠ k) : dictLookup (dictSet d k v) k2 = dictLookup d k2 := by
  have hkk2 : ¬(k = k2) := fun hh => h hh.symm
  induction d with
  | leafV w => simp [dictSet, dictLookup, hkk2]
  | dnil => simp [dictSet, dictLookup, hkk2]
  | dcons k3 t rest iht ihrest =>
      by_cases hk : k3 = k
      · have hne : ¬(k3 = k2) := fun hh => h (hh.symm.trans hk)
        simp [dictSet, dictLookup, hk, hne, hkk2]
      · by_cases hk2 : k3 = k2
        · simp [dictSet, dictLookup, hk, hk2, h]
        · simp [dictSet, dictLookup, hk, hk2, ihrest]

theorem isDict_dictSet (d : PDict) (k : String) (v : PDict) :
    isDict (dictSet d k v) = true := by
  cases d with
  | leafV w => rfl
  | dnil => rfl
  | dcons k2 t rest =>
      simp only [dictSet]
      split <;> rfl

theorem insertParts_nil (d : PDict) (v : Value) : insertParts d [] v = none := by
  cases d <;> rfl

theorem insertParts_leafV (w : Value) (p : String) (ps : List String) (v : Value) :
    insertParts (.leafV w) (p :: ps) v = none := by
  cases ps <;> rfl

theorem insertParts_single (d : PDict) (p : String) (v : Value) (h : isDict d = true) :
    insertParts d [p] v = some (dictSet d p (.leafV v)) := by
  cases d with
  | leafV w => simp [isDict] at h
  | dnil => rfl
  | dcons k t rest => rfl

theorem insertParts_cons2 (d : PDict) (p r : String) (rs : List String) (v : Value)
    (h : isDict d = true) :
    insertParts d (p :: r :: rs) v =
      (insertParts (match dictLookup d p with | some t => t | none => .dnil) (r :: rs) v).map
        (fun t2 => dictSet d p t2) := by
  cases d with
  | leafV w => simp [isDict] at h
  | dnil => rfl
  | dcons k t rest => rfl

theorem insertParts_isDict_src : ∀ (parts : List String) (d d2 : PDict) (v : Value),
    insertParts d parts v = some d2 → isDict d = true := by
  intro parts d d2 v h
  cases d with
  | leafV w =>
      cases parts with
      | nil => rw [insertParts_nil] at h; exact absurd h (by simp)
      | cons p ps => rw [insertParts_leafV] at h; exact absurd h (by simp)
  | dnil => rfl
  | dcons k t rest => rfl

theorem insertParts_isDict : ∀ (parts : List String) (d d2 : PDict) (v : Value),
    insertParts d parts v = some d2 → isDict d2 = true := by
  intro parts d d2 v h
  have hd := insertParts_isDict_src parts d d2 v h
  cases parts with
  | nil => rw [insertParts_nil] at h; exact absurd h (by simp)
  | cons p ps =>
      cases ps with
      | nil =>
          rw [insertParts_single d p v hd] at h
          injection h with h
          rw [← h]
          exact isDict_dictSet d p _
      | cons r rs =>
          rw [insertParts_cons2 d p r rs v hd] at h
          cases hsub : insertParts (match dictLookup d p with
              | some t => t | none => .dnil) (r :: rs) v with
          | none => rw [hsub] at h; exact absurd h (by simp)
          | some t2 =>
              rw [hsub] at h
              injection h with h
              rw [← h]
              exact isDict_dictSet d p t2

theorem insertParts_lookAt_self : ∀ (parts : List String) (d d2 : PDict) (v : Value),
    insertParts d parts v = some d2 → lookAt d2 parts = some (.leafV v) := by
  intro parts
  induction parts with
  | nil => intro d d2 v h; rw [insertParts_nil] at h; exact absurd h (by simp)
  | cons p ps ih =>
      intro d d2 v h
      have hd := insertParts_isDict_src _ d d2 v h
      cases ps with
      | nil =>
          rw [insertParts_single d p v hd] at h
          injection h with h
          rw [← h]
          simp [lookAt, dictLookup_dictSet_self]
      | cons r rs =>
          rw [insertParts_cons2 d p r rs v hd] at h
          cases hsub : insertParts (match dictLookup d p with
              | some t => t | none => .dnil) (r :: rs) v with
          | none => rw [hsub] at h; exact absurd h (by simp)
          | some t2 =>
              rw [hsub] at h
              injection h with h
              rw [← h]
              simp only [lookAt, dictLookup_dictSet_self]
              exact ih _ t2 v hsub

theorem insertParts_lookAt_frame : ∀ (parts : List String) (d d2 : PDict) (v : Value)
    (q : List String), insertParts d parts v = some d2 →
    leads q parts = false → leads parts q = false → lookAt d2 q = lookAt d q := by
  intro parts
  induction parts with
  | nil => intro d d2 v q h _ _; rw [insertParts_nil] at h; exact absurd h (by simp)
  | cons p ps ih =>
      intro d d2 v q h hq1 hq2
      have hd := insertParts_isDict_src _ d d2 v h
      cases q with
      | nil => simp [leads] at hq1
      | cons k qs =>
          by_cases hk : k = p
          · subst hk
            have hqs1 : leads qs ps = false := by
              by_contra hc
              rw [Bool.not_eq_false] at hc
              rw [show leads (k :: qs) (k :: ps) = true by simp [leads, hc]] at hq1
              exact absurd hq1 (by simp)
            have hqs2 : leads ps qs = false := by
              by_contra hc
              rw [Bool.not_eq_false] at hc
              rw [show leads (k :: ps) (k :: qs) = true by simp [leads, hc]] at hq2
              exact absurd hq2 (by simp)
            cases ps with
            | nil => simp [leads] at hqs2
            | cons r rs =>
                rw [insertParts_cons2 d k r rs v hd] at h
                cases hsub : insertParts (match dictLookup d k with
                    | some t => t | none => .dnil) (r :: rs) v with
                | none => rw [hsub] at h; exact absurd h (by simp)
                | some t2 =>
                    rw [hsub] at h
                    injection h with h
                    rw [← h]
                    simp only [lookAt, dictLookup_dictSet_self]
                    cases hl : dictLookup d k with
                    | some t =>
                        rw [hl] at hsub
                        exact ih t t2 v qs hsub hqs1 hqs2
                    | none =>
                        rw [hl] at hsub
                        rw [ih _ t2 v qs hsub hqs1 hqs2]
                        cases qs with
                        | nil => simp [leads] at hqs1
                        | cons x xs => rfl
          · -- different head: the set entry is untouched
            cases ps with
            | nil =>
                rw [insertParts_single d p v hd] at h
                injection h with h
                rw [← h]
                simp only [lookAt]
                rw [dictLookup_dictSet_other d p k _ hk]
            | cons r rs =>
                rw [insertParts_cons2 d p r rs v hd] at h
                cases hsub : insertParts (match dictLookup d p with
                    | some t => t | none => .dnil) (r :: rs) v with
                | none => rw [hsub] at h; exact absurd h (by simp)
                | some t2 =>
                    rw [hsub] at h
                    injection h with h
                    rw [← h]
                    simp only [lookAt]
                    rw [dictLookup_dictSet_other d p k t2 hk]

theorem leafAtB_cons (d t : PDict) (p : String) (q : List String)
    (h : dictLookup d p = some t) : leafAtB d (p :: q) = leafAtB t q := by
  unfold leafAtB
  simp [lookAt, h]

theorem leafAtB_dnil (q : List String) (h : q ≠ []) : leafAtB .dnil q = false := by
  cases q with
  | nil => exact absurd rfl h
  | cons x xs => rfl

theorem insertParts_fail : ∀ (r parts : List String) (d : PDict) (v : Value),
    r ≠ [] → leads r parts = true → r ≠ parts → leafAtB d r = true →
    insertParts d parts v = none := by
  intro r
  induction r with
  | nil => intro parts d v hne _ _ _; exact absurd rfl hne
  | cons k r2 ih =>
      intro parts d v _ hle hneq hleaf
      cases parts with
      | nil => simp [leads] at hle
      | cons p rest =>
          rw [leads_cons] at hle
          obtain ⟨hkp, hle2⟩ := hle
          subst hkp
          unfold leafAtB at hleaf
          simp only [lookAt] at hleaf
          cases hdl : dictLookup d k with
          | none => rw [hdl] at hleaf; simp at hleaf
          | some t =>
              rw [hdl] at hleaf
              have hd : isDict d = true := by
                cases d with
                | leafV w => simp [dictLookup] at hdl
                | dnil => simp [dictLookup] at hdl
                | dcons a b c => rfl
              cases r2 with
              | nil =>
                  cases rest with
                  | nil => exact absurd rfl hneq
                  | cons r1 rs1 =>
                      rw [insertParts_cons2 d k r1 rs1 v hd, hdl]
                      cases t with
                      | leafV w => rw [insertParts_leafV]; rfl
                      | dnil => simp [lookAt] at hleaf
                      | dcons a b c => simp [lookAt] at hleaf
              | cons x xs =>
                  cases rest with
                  | nil => simp [leads] at hle2
                  | cons r1 rs1 =>
                      rw [insertParts_cons2 d k r1 rs1 v hd, hdl]
                      have hnone : insertParts t (r1 :: rs1) v = none :=
                        ih (r1 :: rs1) t v (by simp) hle2
                          (fun hh => hneq (by rw [hh])) hleaf
                      rw [hnone]; rfl

theorem insertParts_ok : ∀ (parts : List String) (d : PDict) (v : Value),
    parts ≠ [] → isDict d = true →
    (∀ r, r ≠ [] → leads r parts = true → r ≠ parts → leafAtB d r = false) →
    ∃ d2, insertParts d parts v = some d2 := by
  intro parts
  induction parts with
  | nil => intro d v hne _ _; exact absurd rfl hne
  | cons p rest ih =>
      intro d v _ hd hyp
      cases rest with
      | nil => exact ⟨_, insertParts_single d p v hd⟩
      | cons r1 rs1 =>
          rw [insertParts_cons2 d p r1 rs1 v hd]
          cases hdl : dictLookup d p with
          | none =>
              have hsubhyp : ∀ r, r ≠ [] → leads r (r1 :: rs1) = true → r ≠ (r1 :: rs1) →
                  leafAtB PDict.dnil r = false := fun r hr _ _ => leafAtB_dnil r hr
              obtain ⟨t2, ht2⟩ := ih .dnil v (by simp) rfl hsubhyp
              exact ⟨dictSet d p t2, by rw [ht2]; rfl⟩
          | some t =>
              have htd : isDict t = true := by
                cases t with
                | leafV w =>
                    have h1 : leafAtB d [p] = true := by
                      unfold leafAtB
                      simp [lookAt, hdl]
                    have h2 := hyp [p] (by simp) (by simp [leads]) (by simp)
                    rw [h1] at h2
                    exact absurd h2 (by simp)
                | dnil => rfl
                | dcons a b c => rfl
              have hsubhyp : ∀ r, r ≠ [] → leads r (r1 :: rs1) = true → r ≠ (r1 :: rs1) →
                  leafAtB t r = false := by
                intro r hr hl hne
                have := hyp (p :: r) (by simp) (by simp [leads, hl]) (fun hh => hne (by
                  injection hh))
                rw [leafAtB_cons d t p r hdl] at this
                exact this
              obtain ⟨t2, ht2⟩ := ih t v (by simp) htd hsubhyp
              exact ⟨dictSet d p t2, by rw [ht2]; rfl⟩

theorem insertParts_lookAt_anc : ∀ (parts : List String) (d d2 : PDict) (v : Value)
    (q : List String), insertParts d parts v = some d2 →
    q ≠ [] → leads q parts = true → q ≠ parts → dictAtB d2 q = true := by
  intro parts
  induction parts with
  | nil =>
      intro d d2 v q h
      rw [insertParts_nil] at h
      exact absurd h (by simp)
  | cons p rest ih =>
      intro d d2 v q h hqne hle hneq
      have hd := insertParts_isDict_src _ _ _ _ h
      cases q with
      | nil => exact absurd rfl hqne
      | cons k qs =>
          rw [leads_cons] at hle
          obtain ⟨hkp, hle2⟩ := hle
          subst hkp
          cases rest with
          | nil =>
              cases qs with
              | nil => exact absurd rfl hneq
              | cons x xs => simp [leads] at hle2
          | cons r1 rs1 =>
              rw [insertParts_cons2 d k r1 rs1 v hd] at h
              cases hsub : insertParts (match dictLookup d k with
                  | some t => t | none => .dnil) (r1 :: rs1) v with
              | none => rw [hsub] at h; exact absurd h (by simp)
              | some t2 =>
                  rw [hsub] at h
                  injection h with h
                  rw [← h]
                  cases qs with
                  | nil =>
                      unfold dictAtB
                      simp only [lookAt, dictLookup_dictSet_self]
                      have hdict := insertParts_isDict _ _ _ _ hsub
                      cases t2 with
                      | leafV w => simp [isDict] at hdict
                      | dnil => rfl
                      | dcons a b c => rfl
                  | cons x xs =>
                      have hq2 : dictAtB t2 (x :: xs) = true :=
                        ih _ _ v (x :: xs) hsub (by simp) hle2
                          (fun hh => hneq (by rw [hh]))
                      unfold dictAtB at hq2 ⊢
                      simp only [lookAt, dictLookup_dictSet_self]
                      exact hq2

theorem hasKey_dictSet_imp : ∀ (d : PDict) (key k2 : String) (v : PDict),
    hasKey (dictSet d key v) k2 = true → hasKey d k2 = true ∨ k2 = key := by
  intro d key k2 v
  induction d with
  | leafV w =>
      intro h
      simp [dictSet, hasKey] at h
      exact Or.inr h.symm
  | dnil =>
      intro h
      simp [dictSet, hasKey] at h
      exact Or.inr h.symm
  | dcons k t rest iht ihrest =>
      intro h
      by_cases hk : k = key
      · simp only [dictSet, if_pos hk] at h
        simp only [hasKey, Bool.or_eq_true] at h ⊢
        exact Or.inl h
      · simp only [dictSet, if_neg hk] at h
        simp only [hasKey, Bool.or_eq_true] at h ⊢
        rcases h with h | h
        · exact Or.inl (Or.inl h)
        · rcases ihrest h with h2 | h2
          · exact Or.inl (Or.inr h2)
          · exact Or.inr h2

theorem keysND_dictSet : ∀ (d : PDict) (key : String) (v : PDict),
    keysND d = true → keysND v = true → keysND (dictSet d key v) = true := by
  intro d key v
  induction d with
  | leafV w => intro _ hv; simp [dictSet, keysND, hasKey, hv, isDict]
  | dnil => intro _ hv; simp [dictSet, keysND, hasKey, hv, isDict]
  | dcons k t rest iht ihrest =>
      intro hd hv
      simp only [keysND, Bool.and_eq_true] at hd
      obtain ⟨⟨⟨h1, h2⟩, h4⟩, h3⟩ := hd
      by_cases hk : k = key
      · simp only [dictSet, if_pos hk]
        simp [keysND, h1, h3, h4, hv]
      · simp only [dictSet, if_neg hk]
        have hnk : hasKey (dictSet rest key v) k = false := by
          by_contra hc
          rw [Bool.not_eq_false] at hc
          rcases hasKey_dictSet_imp rest key k v hc with h | h
          · rw [h] at h1; exact absurd h1 (by simp)
          · exact hk h
        simp [keysND, hnk, h2, ihrest h3 hv, isDict_dictSet]

theorem keysND_dictLookup : ∀ (d : PDict) (k : String) (t : PDict),
    keysND d = true → dictLookup d k = some t → keysND t = true := by
  intro d k t
  induction d with
  | leafV w => intro _ h; simp [dictLookup] at h
  | dnil => intro _ h; simp [dictLookup] at h
  | dcons k2 t2 rest iht ihrest =>
      intro hd h
      simp only [keysND, Bool.and_eq_true] at hd
      obtain ⟨⟨⟨h1, h2⟩, h4⟩, h3⟩ := hd
      by_cases hk : k2 = k
      · simp only [dictLookup, if_pos hk] at h
        injection h with h
        rw [← h]; exact h2
      · simp only [dictLookup, if_neg hk] at h
        exact ihrest h3 h

theorem insertParts_keysND : ∀ (parts : List String) (d d2 : PDict) (v : Value),
    insertParts d parts v = some d2 → keysND d = true → keysND d2 = true := by
  intro parts
  induction parts with
  | nil =>
      intro d d2 v h
      rw [insertParts_nil] at h
      exact absurd h (by simp)
  | cons p rest ih =>
      intro d d2 v h hd
      have hdi := insertParts_isDict_src _ _ _ _ h
      cases rest with
      | nil =>
          rw [insertParts_single d p v hdi] at h
          injection h with h
          rw [← h]
          exact keysND_dictSet d p _ hd rfl
      | cons r1 rs1 =>
          rw [insertParts_cons2 d p r1 rs1 v hdi] at h
          cases hsub : insertParts (match dictLookup d p with
              | some t => t | none => .dnil) (r1 :: rs1) v with
          | none => rw [hsub] at h; exact absurd h (by simp)
          | some t2 =>
              rw [hsub] at h
              injection h with h
              rw [← h]
              have hsk : keysND (match dictLookup d p with
                  | some t => t | none => PDict.dnil) = true := by
                cases hdl : dictLookup d p with
                | some t => exact keysND_dictLookup d p t hd hdl
                | none => rfl
              exact keysND_dictSet d p t2 hd (ih _ _ v hsub hsk)

theorem dictLeafPaths_head : ∀ (d : PDict) (q : List String), q ∈ dictLeafPaths d →
    ∃ k qs, q = k :: qs ∧ hasKey d k = true := by
  intro d
  induction d with
  | leafV w => intro q h; simp [dictLeafPaths] at h
  | dnil => intro q h; simp [dictLeafPaths] at h
  | dcons k t rest iht ihrest =>
      intro q h
      cases t with
      | leafV w =>
          simp only [dictLeafPaths] at h
          rcases List.mem_cons.mp h with h | h
          · exact ⟨k, [], h, by simp [hasKey]⟩
          · obtain ⟨k3, qs3, hq, hk3⟩ := ihrest q h
            exact ⟨k3, qs3, hq, by simp [hasKey, hk3]⟩
      | dnil =>
          simp only [dictLeafPaths] at h
          obtain ⟨k3, qs3, hq, hk3⟩ := ihrest q h
          exact ⟨k3, qs3, hq, by simp [hasKey, hk3]⟩
      | dcons kt tt rt =>
          simp only [dictLeafPaths] at h
          rcases List.mem_append.mp h with h | h
          · obtain ⟨qs2, _, hq⟩ := List.mem_map.mp h
            exact ⟨k, qs2, hq.symm, by simp [hasKey]⟩
          · obtain ⟨k3, qs3, hq, hk3⟩ := ihrest q h
            exact ⟨k3, qs3, hq, by simp [hasKey, hk3]⟩

theorem dictGroupPaths_head : ∀ (d : PDict) (q : List String), q ∈ dictGroupPaths d →
    ∃ k qs, q = k :: qs ∧ hasKey d k = true := by
  intro d
  induction d with
  | leafV w => intro q h; simp [dictGroupPaths] at h
  | dnil => intro q h; simp [dictGroupPaths] at h
  | dcons k t rest iht ihrest =>
      intro q h
      cases t with
      | leafV w =>
          simp only [dictGroupPaths] at h
          obtain ⟨k3, qs3, hq, hk3⟩ := ihrest q h
          exact ⟨k3, qs3, hq, by simp [hasKey, hk3]⟩
      | dnil =>
          simp only [dictGroupPaths] at h
          rcases List.mem_cons.mp h with h | h
          · exact ⟨k, [], h, by simp [hasKey]⟩
          · obtain ⟨k3, qs3, hq, hk3⟩ := ihrest q h
            exact ⟨k3, qs3, hq, by simp [hasKey, hk3]⟩
      | dcons kt tt rt =>
          simp only [dictGroupPaths] at h
          rcases List.mem_cons.mp h with h | h
          · exact ⟨k, [], h, by simp [hasKey]⟩
          rcases List.mem_append.mp h with h | h
          · obtain ⟨qs2, _, hq⟩ := List.mem_map.mp h
            exact ⟨k, qs2, hq.symm, by simp [hasKey]⟩
          · obtain ⟨k3, qs3, hq, hk3⟩ := ihrest q h
            exact ⟨k3, qs3, hq, by simp [hasKey, hk3]⟩

theorem leafAtB_cons_other (k k2 : String) (t rest : PDict) (qs : List String)
    (hk : ¬(k = k2)) :
    leafAtB (PDict.dcons k t rest) (k2 :: qs) = leafAtB rest (k2 :: qs) := by
  unfold leafAtB
  simp only [lookAt, dictLookup, if_neg hk]

theorem dictAtB_cons_other (k k2 : String) (t rest : PDict) (qs : List String)
    (hk : ¬(k = k2)) :
    dictAtB (PDict.dcons k t rest) (k2 :: qs) = dictAtB rest (k2 :: qs) := by
  unfold dictAtB
  simp only [lookAt, dictLookup, if_neg hk]

theorem mem_dictLeafPaths : ∀ (d : PDict), keysND d = true → isDict d = true →
    ∀ q, (q ∈ dictLeafPaths d ↔ leafAtB d q = true) := by
  intro d
  induction d with
  | leafV w => intro _ hd _; simp [isDict] at hd
  | dnil =>
      intro _ _ q
      constructor
      · intro h; simp [dictLeafPaths] at h
      · intro h
        cases q with
        | nil => simp [leafAtB, lookAt] at h
        | cons x xs => simp [leafAtB, lookAt, dictLookup] at h
  | dcons k t rest iht ihrest =>
      intro hnd _ q
      simp only [keysND, Bool.and_eq_true] at hnd
      obtain ⟨⟨⟨h1, h2⟩, h4⟩, h3⟩ := hnd
      rw [Bool.not_eq_true'] at h1
      cases q with
      | nil =>
          constructor
          · intro h
            obtain ⟨k2, qs, hq, _⟩ := dictLeafPaths_head _ _ h
            exact absurd hq (by simp)
          · intro h; simp [leafAtB, lookAt] at h
      | cons k2 qs =>
          by_cases hk : k = k2
          · subst hk
            rw [leafAtB_cons _ t k qs (by simp [dictLookup])]
            cases t with
            | leafV w =>
                simp only [dictLeafPaths]
                constructor
                · intro h
                  rcases List.mem_cons.mp h with h | h
                  · injection h with _ h
                    rw [h]
                    rfl
                  · obtain ⟨k3, qs3, hq, hk3⟩ := dictLeafPaths_head rest _ h
                    injection hq with hq1 _
                    rw [← hq1] at hk3
                    rw [hk3] at h1
                    exact absurd h1 (by simp)
                · intro h
                  cases qs with
                  | nil => exact List.mem_cons_self _ _
                  | cons x xs => simp [leafAtB, lookAt, dictLookup] at h
            | dnil =>
                simp only [dictLeafPaths]
                constructor
                · intro h
                  obtain ⟨k3, qs3, hq, hk3⟩ := dictLeafPaths_head rest _ h
                  injection hq with hq1 _
                  rw [← hq1] at hk3
                  rw [hk3] at h1
                  exact absurd h1 (by simp)
                · intro h
                  cases qs with
                  | nil => simp [leafAtB, lookAt] at h
                  | cons x xs => simp [leafAtB, lookAt, dictLookup] at h
            | dcons kt tt rt =>
                simp only [dictLeafPaths]
                constructor
                · intro h
                  rcases List.mem_append.mp h with h | h
                  · obtain ⟨qs2, hqs2, hq⟩ := List.mem_map.mp h
                    injection hq with _ hq2
                    rw [← hq2]
                    exact (iht h2 rfl qs2).mp hqs2
                  · obtain ⟨k3, qs3, hq, hk3⟩ := dictLeafPaths_head rest _ h
                    injection hq with hq1 _
                    rw [← hq1] at hk3
                    rw [hk3] at h1
                    exact absurd h1 (by simp)
                · intro h
                  apply List.mem_append.mpr
                  exact Or.inl (List.mem_map.mpr ⟨qs, (iht h2 rfl qs).mpr h, rfl⟩)
          · rw [leafAtB_cons_other k k2 t rest qs hk]
            have hrestmem : ((k2 :: qs) ∈ dictLeafPaths (PDict.dcons k t rest) ↔
                (k2 :: qs) ∈ dictLeafPaths rest) := by
              cases t with
              | leafV w =>
                  simp only [dictLeafPaths, List.mem_cons]
                  constructor
                  · rintro (h | h)
                    · injection h with h _; exact absurd h.symm hk
                    · exact h
                  · exact fun h => Or.inr h
              | dnil => simp [dictLeafPaths]
              | dcons kt tt rt =>
                  simp only [dictLeafPaths, List.mem_append]
                  constructor
                  · rintro (h | h)
                    · obtain ⟨qs2, _, hq⟩ := List.mem_map.mp h
                      injection hq with hq1 _
                      exact absurd hq1 hk
                    · exact h
                  · exact fun h => Or.inr h
            rw [hrestmem]
            have hrd : isDict rest = true := h4
            exact ihrest h3 hrd (k2 :: qs)

theorem dictAtB_cons (d t : PDict) (p : String) (q : List String)
    (h : dictLookup d p = some t) : dictAtB d (p :: q) = dictAtB t q := by
  unfold dictAtB
  simp [lookAt, h]

theorem mem_dictGroupPaths : ∀ (d : PDict), keysND d = true → isDict d = true →
    ∀ q, (q ∈ dictGroupPaths d ↔ (q ≠ [] ∧ dictAtB d q = true)) := by
  intro d
  induction d with
  | leafV w => intro _ hd _; simp [isDict] at hd
  | dnil =>
      intro _ _ q
      constructor
      · intro h; simp [dictGroupPaths] at h
      · rintro ⟨hne, h⟩
        cases q with
        | nil => exact absurd rfl hne
        | cons x xs => simp [dictAtB, lookAt, dictLookup] at h
  | dcons k t rest iht ihrest =>
      intro hnd _ q
      simp only [keysND, Bool.and_eq_true] at hnd
      obtain ⟨⟨⟨h1, h2⟩, h4⟩, h3⟩ := hnd
      rw [Bool.not_eq_true'] at h1
      cases q with
      | nil =>
          constructor
          · intro h
            obtain ⟨k2, qs, hq, _⟩ := dictGroupPaths_head _ _ h
            exact absurd hq (by simp)
          · rintro ⟨hne, _⟩; exact absurd rfl hne
      | cons k2 qs =>
          by_cases hk : k = k2
          · subst hk
            rw [dictAtB_cons _ t k qs (by simp [dictLookup])]
            cases t with
            | leafV w =>
                simp only [dictGroupPaths]
                constructor
                · intro h
                  obtain ⟨k3, qs3, hq, hk3⟩ := dictGroupPaths_head rest _ h
                  injection hq with hq1 _
                  rw [← hq1] at hk3
                  rw [hk3] at h1
                  exact absurd h1 (by simp)
                · rintro ⟨_, h⟩
                  cases qs with
                  | nil => simp [dictAtB, lookAt] at h
                  | cons x xs => simp [dictAtB, lookAt, dictLookup] at h
            | dnil =>
                simp only [dictGroupPaths]
                constructor
                · intro h
                  rcases List.mem_cons.mp h with h | h
                  · injection h with _ h
                    rw [h]
                    exact ⟨by simp, rfl⟩
                  · obtain ⟨k3, qs3, hq, hk3⟩ := dictGroupPaths_head rest _ h
                    injection hq with hq1 _
                    rw [← hq1] at hk3
                    rw [hk3] at h1
                    exact absurd h1 (by simp)
                · rintro ⟨_, h⟩
                  cases qs with
                  | nil => exact List.mem_cons_self _ _
                  | cons x xs => simp [dictAtB, lookAt, dictLookup] at h
            | dcons kt tt rt =>
                simp only [dictGroupPaths]
                constructor
                · intro h
                  rcases List.mem_cons.mp h with h | h
                  · injection h with _ h
                    rw [h]
                    exact ⟨by simp, rfl⟩
                  rcases List.mem_append.mp h with h | h
                  · obtain ⟨qs2, hqs2, hq⟩ := List.mem_map.mp h
                    injection hq with _ hq2
                    rw [← hq2]
                    exact ⟨by simp, ((iht h2 rfl qs2).mp hqs2).2⟩
                  · obtain ⟨k3, qs3, hq, hk3⟩ := dictGroupPaths_head rest _ h
                    injection hq with hq1 _
                    rw [← hq1] at hk3
                    rw [hk3] at h1
                    exact absurd h1 (by simp)
                · rintro ⟨_, h⟩
                  cases qs with
                  | nil => exact List.mem_cons_self _ _
                  | cons x xs =>
                      apply List.mem_cons.mpr
                      refine Or.inr (List.mem_append.mpr (Or.inl ?_))
                      exact List.mem_map.mpr
                        ⟨x :: xs, (iht h2 rfl (x :: xs)).mpr ⟨by simp, h⟩, rfl⟩
          · rw [dictAtB_cons_other k k2 t rest qs hk]
            have hrestmem : ((k2 :: qs) ∈ dictGroupPaths (PDict.dcons k t rest) ↔
                (k2 :: qs) ∈ dictGroupPaths rest) := by
              cases t with
              | leafV w => simp [dictGroupPaths]
              | dnil =>
                  simp only [dictGroupPaths, List.mem_cons]
                  constructor
                  · rintro (h | h)
                    · injection h with h _; exact absurd h.symm hk
                    · exact h
                  · exact fun h => Or.inr h
              | dcons kt tt rt =>
                  simp only [dictGroupPaths, List.mem_cons, List.mem_append]
                  constructor
                  · rintro (h | h | h)
                    · injection h with h _; exact absurd h.symm hk
                    · obtain ⟨qs2, _, hq⟩ := List.mem_map.mp h
                      injection hq with hq1 _
                      exact absurd hq1 hk
                    · exact h
                  · exact fun h => Or.inr (Or.inr h)
            rw [hrestmem]
            exact ihrest h3 h4 (k2 :: qs)

theorem dictLeafPaths_nodup : ∀ (d : PDict), keysND d = true → (dictLeafPaths d).Nodup := by
  intro d
  induction d with
  | leafV w => intro _; simp [dictLeafPaths]
  | dnil => intro _; simp [dictLeafPaths]
  | dcons k t rest iht ihrest =>
      intro hnd
      simp only [keysND, Bool.and_eq_true] at hnd
      obtain ⟨⟨⟨h1, h2⟩, h4⟩, h3⟩ := hnd
      rw [Bool.not_eq_true'] at h1
      cases t with
      | leafV w =>
          simp only [dictLeafPaths]
          refine List.nodup_cons.mpr ⟨?_, ihrest h3⟩
          intro hmem
          obtain ⟨k3, qs3, hq, hk3⟩ := dictLeafPaths_head rest _ hmem
          injection hq with hq1 _
          rw [← hq1] at hk3
          rw [hk3] at h1
          exact absurd h1 (by simp)
      | dnil => exact ihrest h3
      | dcons kt tt rt =>
          simp only [dictLeafPaths]
          refine List.Nodup.append ?_ (ihrest h3) ?_
          · exact (iht h2).map (List.cons_injective)
          · intro a ha hb
            obtain ⟨qs2, _, hq⟩ := List.mem_map.mp ha
            obtain ⟨k3, qs3, hq3, hk3⟩ := dictLeafPaths_head rest _ hb
            rw [← hq] at hq3
            injection hq3 with hq1 _
            rw [← hq1] at hk3
            rw [hk3] at h1
            exact absurd h1 (by simp)

theorem dictGroupPaths_nodup : ∀ (d : PDict), keysND d = true →
    (dictGroupPaths d).Nodup := by
  intro d
  induction d with
  | leafV w => intro _; simp [dictGroupPaths]
  | dnil => intro _; simp [dictGroupPaths]
  | dcons k t rest iht ihrest =>
      intro hnd
      simp only [keysND, Bool.and_eq_true] at hnd
      obtain ⟨⟨⟨h1, h2⟩, h4⟩, h3⟩ := hnd
      rw [Bool.not_eq_true'] at h1
      cases t with
      | leafV w => exact ihrest h3
      | dnil =>
          simp only [dictGroupPaths]
          refine List.nodup_cons.mpr ⟨?_, ihrest h3⟩
          intro hmem
          obtain ⟨k3, qs3, hq, hk3⟩ := dictGroupPaths_head rest _ hmem
          injection hq with hq1 _
          rw [← hq1] at hk3
          rw [hk3] at h1
          exact absurd h1 (by simp)
      | dcons kt tt rt =>
          simp only [dictGroupPaths]
          refine List.nodup_cons.mpr ⟨?_, ?_⟩
          · intro hmem
            rcases List.mem_append.mp hmem with h | h
            · obtain ⟨qs2, hqs2, hq⟩ := List.mem_map.mp h
              obtain ⟨k3, qs3, hq3, _⟩ := dictGroupPaths_head _ _ hqs2
              rw [hq3] at hq
              injection hq with _ hq2
              exact absurd hq2.symm (by simp)
            · obtain ⟨k3, qs3, hq, hk3⟩ := dictGroupPaths_head rest _ h
              injection hq with hq1 _
              rw [← hq1] at hk3
              rw [hk3] at h1
              exact absurd h1 (by simp)
          · refine List.Nodup.append ?_ (ihrest h3) ?_
            · exact (iht h2).map (List.cons_injective)
            · intro a ha hb
              obtain ⟨qs2, _, hq⟩ := List.mem_map.mp ha
              obtain ⟨k3, qs3, hq3, hk3⟩ := dictGroupPaths_head rest _ hb
              rw [← hq] at hq3
              injection hq3 with hq1 _
              rw [← hq1] at hk3
              rw [hk3] at h1
              exact absurd h1 (by simp)

theorem dictAtB_nil (d : PDict) (h : isDict d = true) : dictAtB d [] = true := by
  cases d with
  | leafV w => simp [isDict] at h
  | dnil => rfl
  | dcons k t rest => rfl

theorem leafAtB_nil (d : PDict) (h : isDict d = true) : leafAtB d [] = false := by
  cases d with
  | leafV w => simp [isDict] at h
  | dnil => rfl
  | dcons k t rest => rfl

theorem build_inv : ∀ (kvs : List (String × Value)) (d : PDict) (L : List (List String)),
    keysND d = true → isDict d = true →
    (∀ p, p ∈ L → p ≠ []) →
    (∀ q, leafAtB d q = true ↔ q ∈ L) →
    (∀ q, dictAtB d q = true ↔ (q = [] ∨ ∃ p, p ∈ L ∧ leads q p = true ∧ q ≠ p)) →
    (∀ p kv, p ∈ L → kv ∈ kvs →
      leads p (splitDot kv.1) = false ∧ leads (splitDot kv.1) p = false) →
    pairwiseNoLeads (kvs.map (fun kv => splitDot kv.1)) = true →
    ∃ dfin, buildTreeFromPaths d kvs = some dfin ∧ keysND dfin = true ∧
      isDict dfin = true ∧
      (∀ p, p ∈ L ++ kvs.map (fun kv => splitDot kv.1) → p ≠ []) ∧
      (∀ q, leafAtB dfin q = true ↔ q ∈ L ++ kvs.map (fun kv => splitDot kv.1)) ∧
      (∀ q, dictAtB dfin q = true ↔
        (q = [] ∨ ∃ p, p ∈ L ++ kvs.map (fun kv => splitDot kv.1) ∧
          leads q p = true ∧ q ≠ p)) := by
  intro kvs
  induction kvs with
  | nil =>
      intro d L hnd hdict hLne hleaf hdictAt _ _
      exact ⟨d, rfl, hnd, hdict, by simpa using hLne, by simpa using hleaf,
        by simpa using hdictAt⟩
  | cons kv kvs' ih =>
      intro d L hnd hdict hLne hleaf hdictAt hcross hpw
      obtain ⟨key, v⟩ := kv
      have hpne : splitDot key ≠ [] := splitDot_ne_nil key
      simp only [List.map_cons, pairwiseNoLeads, Bool.and_eq_true] at hpw
      obtain ⟨hall, hpw'⟩ := hpw
      have hallmem : ∀ kv2, kv2 ∈ kvs' →
          leads (splitDot key) (splitDot kv2.1) = false ∧
          leads (splitDot kv2.1) (splitDot key) = false := by
        intro kv2 hkv2
        have hm : splitDot kv2.1 ∈ kvs'.map (fun kv => splitDot kv.1) :=
          List.mem_map.mpr ⟨kv2, hkv2, rfl⟩
        have := List.all_eq_true.mp hall _ hm
        simp only [Bool.and_eq_true, Bool.not_eq_true'] at this
        exact this
      have hins : ∃ d2, insertParts d (splitDot key) v = some d2 := by
        apply insertParts_ok _ d v hpne hdict
        intro r hrne hrle hrneq
        by_contra hc
        rw [Bool.not_eq_false] at hc
        have hrL : r ∈ L := (hleaf r).mp hc
        have hcf := (hcross r (key, v) hrL (List.mem_cons_self _ _)).1
        rw [hrle] at hcf
        exact absurd hcf (by simp)
      obtain ⟨d2, hd2⟩ := hins
      have hdict2 : isDict d2 = true := insertParts_isDict _ _ _ _ hd2
      have hnd2 : keysND d2 = true := insertParts_keysND _ _ _ _ hd2 hnd
      have hself : lookAt d2 (splitDot key) = some (.leafV v) :=
        insertParts_lookAt_self _ _ _ _ hd2
      have hleaf2 : ∀ q, leafAtB d2 q = true ↔ q ∈ L ++ [splitDot key] := by
        intro q
        rw [List.mem_append, List.mem_singleton]
        by_cases hq1 : leads q (splitDot key) = true
        · by_cases hq2 : leads (splitDot key) q = true
          · have heq : q = splitDot key := leads_antisymm _ _ hq1 hq2
            subst heq
            constructor
            · intro _; exact Or.inr rfl
            · intro _
              unfold leafAtB
              rw [hself]
          · have hneq : q ≠ splitDot key := fun hh => hq2 (by rw [hh]; exact leads_refl _)
            by_cases hqe : q = []
            · subst hqe
              rw [leafAtB_nil d2 hdict2]
              constructor
              · intro h; exact absurd h (by simp)
              · rintro (h | h)
                · exact absurd (hLne [] h) (by simp)
                · exact absurd h.symm hpne
            · have hda := insertParts_lookAt_anc _ _ _ _ q hd2 hqe hq1 hneq
              rw [dictAtB_not_leafAtB _ _ hda]
              constructor
              · intro h; exact absurd h (by simp)
              · rintro (h | h)
                · have hcf := (hcross q (key, v) h (List.mem_cons_self _ _)).1
                  rw [hq1] at hcf
                  exact absurd hcf (by simp)
                · exact absurd h hneq
        · by_cases hq2 : leads (splitDot key) q = true
          · obtain ⟨tl, htl⟩ := leads_append _ _ hq2
            have htlne : tl ≠ [] := by
              intro hh
              rw [hh, List.append_nil] at htl
              rw [htl] at hq1
              exact hq1 (leads_refl _)
            have hnone : lookAt d2 q = none := by
              rw [htl, lookAt_append, hself]
              cases tl with
              | nil => exact absurd rfl htlne
              | cons x xs => rfl
            have hlf : leafAtB d2 q = false := by
              unfold leafAtB
              rw [hnone]
            rw [hlf]
            constructor
            · intro h; exact absurd h (by simp)
            · rintro (h | h)
              · have hcf := (hcross q (key, v) h (List.mem_cons_self _ _)).2
                rw [hq2] at hcf
                exact absurd hcf (by simp)
              · rw [h] at hq1
                exact absurd (leads_refl _) hq1
          · have hfr := insertParts_lookAt_frame _ _ _ _ q hd2
              (Bool.eq_false_iff.mpr hq1) (Bool.eq_false_iff.mpr hq2)
            have heql : leafAtB d2 q = leafAtB d q := by
              unfold leafAtB
              rw [hfr]
            rw [heql, hleaf q]
            constructor
            · exact fun h => Or.inl h
            · rintro (h | h)
              · exact h
              · rw [h] at hq1
                exact absurd (leads_refl _) hq1
      have hdictAt2 : ∀ q, dictAtB d2 q = true ↔
          (q = [] ∨ ∃ p, p ∈ L ++ [splitDot key] ∧ leads q p = true ∧ q ≠ p) := by
        intro q
        by_cases hqe : q = []
        · subst hqe
          rw [dictAtB_nil d2 hdict2]
          constructor
          · intro _; exact Or.inl rfl
          · intro _; rfl
        · by_cases hq1 : leads q (splitDot key) = true
          · by_cases hq2 : leads (splitDot key) q = true
            · have heq : q = splitDot key := leads_antisymm _ _ hq1 hq2
              subst heq
              have hlf : dictAtB d2 (splitDot key) = false := by
                unfold dictAtB
                rw [hself]
              rw [hlf]
              constructor
              · intro h; exact absurd h (by simp)
              · rintro (h | ⟨p, hp, hle, hne⟩)
                · exact absurd h hpne
                · rcases List.mem_append.mp hp with hpL | hpP
                  · have hcf := (hcross p (key, v) hpL (List.mem_cons_self _ _)).2
                    rw [hle] at hcf
                    exact absurd hcf (by simp)
                  · rw [List.mem_singleton] at hpP
                    rw [hpP] at hne
                    exact absurd rfl hne
            · have hneq : q ≠ splitDot key := fun hh => hq2 (by rw [hh]; exact leads_refl _)
              have hda := insertParts_lookAt_anc _ _ _ _ q hd2 hqe hq1 hneq
              rw [hda]
              constructor
              · intro _
                exact Or.inr ⟨splitDot key,
                  List.mem_append.mpr (Or.inr (List.mem_singleton.mpr rfl)), hq1, hneq⟩
              · intro _; rfl
          · by_cases hq2 : leads (splitDot key) q = true
            · obtain ⟨tl, htl⟩ := leads_append _ _ hq2
              have htlne : tl ≠ [] := by
                intro hh
                rw [hh, List.append_nil] at htl
                rw [htl] at hq1
                exact hq1 (leads_refl _)
              have hnone : lookAt d2 q = none := by
                rw [htl, lookAt_append, hself]
                cases tl with
                | nil => exact absurd rfl htlne
                | cons x xs => rfl
              have hlf : dictAtB d2 q = false := by
                unfold dictAtB
                rw [hnone]
              rw [hlf]
              constructor
              · intro h; exact absurd h (by simp)
              · rintro (h | ⟨p, hp, hle, hne⟩)
                · exact absurd h hqe
                · rcases List.mem_append.mp hp with hpL | hpP
                  · have htr : leads (splitDot key) p = true := leads_trans _ _ _ hq2 hle
                    have hcf := (hcross p (key, v) hpL (List.mem_cons_self _ _)).2
                    rw [htr] at hcf
                    exact absurd hcf (by simp)
                  · rw [List.mem_singleton] at hpP
                    rw [hpP] at hle
                    exact absurd hle hq1
            · have hfr := insertParts_lookAt_frame _ _ _ _ q hd2
                (Bool.eq_false_iff.mpr hq1) (Bool.eq_false_iff.mpr hq2)
              have heql : dictAtB d2 q = dictAtB d q := by
                unfold dictAtB
                rw [hfr]
              rw [heql, hdictAt q]
              constructor
              · rintro (h | ⟨p, hp, hle, hne⟩)
                · exact Or.inl h
                · exact Or.inr ⟨p, List.mem_append.mpr (Or.inl hp), hle, hne⟩
              · rintro (h | ⟨p, hp, hle, hne⟩)
                · exact Or.inl h
                · rcases List.mem_append.mp hp with hpL | hpP
                  · exact Or.inr ⟨p, hpL, hle, hne⟩
                  · rw [List.mem_singleton] at hpP
                    rw [hpP] at hle
                    exact absurd hle hq1
      have hLne2 : ∀ p, p ∈ L ++ [splitDot key] → p ≠ [] := by
        intro p hp
        rcases List.mem_append.mp hp with h | h
        · exact hLne p h
        · rw [List.mem_singleton] at h
          rw [h]
          exact hpne
      have hcross2 : ∀ p kv2, p ∈ L ++ [splitDot key] → kv2 ∈ kvs' →
          leads p (splitDot kv2.1) = false ∧ leads (splitDot kv2.1) p = false := by
        intro p kv2 hp hkv2
        rcases List.mem_append.mp hp with h | h
        · exact hcross p kv2 h (List.mem_cons_of_mem _ hkv2)
        · rw [List.mem_singleton] at h
          rw [h]
          exact hallmem kv2 hkv2
      obtain ⟨dfin, hbuild, hndf, hdictf, hnef, hleaff, hdictAtf⟩ :=
        ih d2 (L ++ [splitDot key]) hnd2 hdict2 hLne2 hleaf2 hdictAt2 hcross2 hpw'
      refine ⟨dfin, ?_, hndf, hdictf, ?_, ?_, ?_⟩
      · simp only [buildTreeFromPaths, hd2]
        exact hbuild
      · intro p hp
        apply hnef p
        simpa [List.append_assoc] using hp
      · intro q
        rw [hleaff q]
        simp [List.append_assoc]
      · intro q
        rw [hdictAtf q]
        constructor
        · rintro (h | ⟨p, hp, hle, hne⟩)
          · exact Or.inl h
          · exact Or.inr ⟨p, by simpa [List.append_assoc] using hp, hle, hne⟩
        · rintro (h | ⟨p, hp, hle, hne⟩)
          · exact Or.inl h
          · exact Or.inr ⟨p, by simpa [List.append_assoc] using hp, hle, hne⟩

theorem length_eq_of_nodup_of_mem_iff : ∀ (l1 l2 : List (List String)), l1.Nodup →
    l2.Nodup → (∀ a, a ∈ l1 ↔ a ∈ l2) → l1.length = l2.length := by
  intro l1
  induction l1 with
  | nil =>
      intro l2 _ _ hmem
      have h2 : l2 = [] := List.eq_nil_iff_forall_not_mem.mpr
        (fun a ha => absurd ((hmem a).mpr ha) (List.not_mem_nil a))
      rw [h2]
  | cons a l1' ih =>
      intro l2 h1 h2 hmem
      have ha2 : a ∈ l2 := (hmem a).mp (List.mem_cons_self _ _)
      obtain ⟨hnotin, h1'⟩ := List.nodup_cons.mp h1
      have herased : l1'.length = (l2.erase a).length := by
        apply ih (l2.erase a) h1' (h2.erase a)
        intro x
        rw [List.Nodup.mem_erase_iff h2]
        constructor
        · intro hx
          refine ⟨fun hh => hnotin (hh ▸ hx), (hmem x).mp (List.mem_cons_of_mem _ hx)⟩
        · rintro ⟨hxa, hx2⟩
          rcases List.mem_cons.mp ((hmem x).mpr hx2) with h | h
          · exact absurd h hxa
          · exact h
      have hlen := List.length_erase_of_mem ha2
      have hpos : 1 ≤ l2.length := List.length_pos.mpr (fun hh => by
        rw [hh] at ha2
        exact absurd ha2 (List.not_mem_nil a))
      simp only [List.length_cons, herased, hlen]
      omega

theorem pairwiseNoLeads_nodup : ∀ L : List (List String),
    pairwiseNoLeads L = true → L.Nodup := by
  intro L
  induction L with
  | nil => intro _; exact List.nodup_nil
  | cons p rest ih =>
      intro h
      simp only [pairwiseNoLeads, Bool.and_eq_true] at h
      obtain ⟨hall, hrest⟩ := h
      refine List.nodup_cons.mpr ⟨?_, ih hrest⟩
      intro hmem
      have hfact := List.all_eq_true.mp hall p hmem
      simp only [Bool.and_eq_true, Bool.not_eq_true'] at hfact
      have h2 := hfact.1
      rw [leads_refl p] at h2
      exact absurd h2 (by simp)

theorem leafAtB_dnil_iff : ∀ q : List String,
    (leafAtB PDict.dnil q = true ↔ q ∈ ([] : List (List String))) := by
  intro q
  constructor
  · intro h
    cases q with
    | nil => simp [leafAtB, lookAt] at h
    | cons x xs => simp [leafAtB, lookAt, dictLookup] at h
  · intro h; exact absurd h (List.not_mem_nil q)

theorem dictAtB_dnil_iff : ∀ q : List String,
    (dictAtB PDict.dnil q = true ↔
      (q = [] ∨ ∃ p, p ∈ ([] : List (List String)) ∧ leads q p = true ∧ q ≠ p)) := by
  intro q
  constructor
  · intro h
    cases q with
    | nil => exact Or.inl rfl
    | cons x xs => simp [dictAtB, lookAt, dictLookup] at h
  · rintro (h | ⟨p, hp, _, _⟩)
    · rw [h]; rfl
    · exact absurd hp (List.not_mem_nil p)

/-- C1 counterexample: the claim quantifies over every flat mapping, but for
the two-entry mapping `{"a.b": 2, "a": 1}` (iterated in that order) the
builder silently overwrites the group `a` — and the leaf `a.b` under it —
with the scalar of the shorter key, producing a tree with one leaf for two
entries. -/
theorem C1_counterexample :
    (buildYaml [("a.b", Value.vInt 2), ("a", Value.vInt 1)]).map
        (fun d => (dictLeafPaths d).length) = some 1 ∧
    ([("a.b", Value.vInt 2), ("a", Value.vInt 1)] : List (String × Value)).length = 2 := by
  exact ⟨rfl, rfl⟩

/-- C1 (amended with the prefix-freedom the counterexample forces): for every
flat mapping whose keys are pairwise prefix-free on their dotted segments,
`_build_tree_from_paths` succeeds and the displayed tree contains exactly one
leaf per mapping entry — the leaf full paths are exactly the key segment
sequences, without duplicates — and its group nodes are exactly the distinct
nonempty proper prefixes of the keys (shared between keys with a common
prefix); each leaf sits at the position of its full segment path, i.e. under
the group chain of its longest proper prefix. -/
theorem C1_tree_builder_leaves_and_groups :
    ∀ kvs : List (String × Value),
    pairwiseNoLeads (kvs.map (fun kv => splitDot kv.1)) = true →
    ∃ dfin, buildYaml kvs = some dfin ∧
      (dictLeafPaths dfin).Nodup ∧
      (∀ q, q ∈ dictLeafPaths dfin ↔ q ∈ kvs.map (fun kv => splitDot kv.1)) ∧
      (dictLeafPaths dfin).length = kvs.length ∧
      (dictGroupPaths dfin).Nodup ∧
      (∀ q, q ∈ dictGroupPaths dfin ↔
        (q ≠ [] ∧ ∃ p, p ∈ kvs.map (fun kv => splitDot kv.1) ∧
          leads q p = true ∧ q ≠ p)) := by
  intro kvs hpw
  obtain ⟨dfin, hbuild, hnd, hdict, hne, hleaf, hdictAt⟩ :=
    build_inv kvs .dnil [] rfl rfl (by simp) leafAtB_dnil_iff dictAtB_dnil_iff
      (by simp) hpw
  simp only [List.nil_append] at hne hleaf hdictAt
  have hmemiff : ∀ q, q ∈ dictLeafPaths dfin ↔ q ∈ kvs.map (fun kv => splitDot kv.1) :=
    fun q => (mem_dictLeafPaths dfin hnd hdict q).trans (hleaf q)
  refine ⟨dfin, hbuild, dictLeafPaths_nodup dfin hnd, hmemiff, ?_, 
    dictGroupPaths_nodup dfin hnd, ?_⟩
  · have hmn : (kvs.map (fun kv => splitDot kv.1)).Nodup := pairwiseNoLeads_nodup _ hpw
    have := length_eq_of_nodup_of_mem_iff _ _ (dictLeafPaths_nodup dfin hnd) hmn hmemiff
    rw [this, List.length_map]
  · intro q
    rw [mem_dictGroupPaths dfin hnd hdict q, hdictAt q]
    constructor
    · rintro ⟨hqne, h | h⟩
      · exact absurd h hqne
      · exact ⟨hqne, h⟩
    · rintro ⟨hqne, h⟩
      exact ⟨hqne, Or.inr h⟩

/-- C1 instantiated at the spec's example `{"a.b.x": 1, "a.b.y": 2, "a.c": 3}`:
the keys are prefix-free, the build succeeds, and the leaves and groups are
as characterized by the amended claim. -/
theorem C1_tree_builder_leaves_and_groups_witness :
    pairwiseNoLeads (([("a.b.x", Value.vInt 1), ("a.b.y", Value.vInt 2),
        ("a.c", Value.vInt 3)] : List (String × Value)).map
        (fun kv => splitDot kv.1)) = true ∧
    ∃ dfin, buildYaml [("a.b.x", Value.vInt 1), ("a.b.y", Value.vInt 2),
        ("a.c", Value.vInt 3)] = some dfin ∧
      (dictLeafPaths dfin).Nodup ∧
      (∀ q, q ∈ dictLeafPaths dfin ↔
        q ∈ ([("a.b.x", Value.vInt 1), ("a.b.y", Value.vInt 2),
          ("a.c", Value.vInt 3)] : List (String × Value)).map (fun kv => splitDot kv.1)) ∧
      (dictLeafPaths dfin).length = ([("a.b.x", Value.vInt 1), ("a.b.y", Value.vInt 2),
        ("a.c", Value.vInt 3)] : List (String × Value)).length ∧
      (dictGroupPaths dfin).Nodup ∧
      (∀ q, q ∈ dictGroupPaths dfin ↔
        (q ≠ [] ∧ ∃ p, p ∈ ([("a.b.x", Value.vInt 1), ("a.b.y", Value.vInt 2),
          ("a.c", Value.vInt 3)] : List (String × Value)).map (fun kv => splitDot kv.1) ∧
          leads q p = true ∧ q ≠ p)) :=
  ⟨by decide, C1_tree_builder_leaves_and_groups
    [("a.b.x", Value.vInt 1), ("a.b.y", Value.vInt 2), ("a.c", Value.vInt 3)] (by decide)⟩

theorem insertParts_preserves_leafAbove (parts : List String) (d d2 : PDict) (v : Value)
    (p : List String) (h : insertParts d parts v = some d2)
    (hinv : ∃ r, r ≠ [] ∧ leads r p = true ∧ leafAtB d r = true) :
    ∃ r, r ≠ [] ∧ leads r p = true ∧ leafAtB d2 r = true := by
  obtain ⟨r, hrne, hrp, hrleaf⟩ := hinv
  by_cases h1 : leads r parts = true
  · by_cases heq : r = parts
    · subst heq
      exact ⟨r, hrne, hrp, by
        unfold leafAtB
        rw [insertParts_lookAt_self _ _ _ _ h]⟩
    · rw [insertParts_fail r parts d v hrne h1 heq hrleaf] at h
      exact absurd h (by simp)
  · by_cases h2 : leads parts r = true
    · have hpne : parts ≠ [] := by
        intro hh
        rw [hh, insertParts_nil] at h
        exact absurd h (by simp)
      exact ⟨parts, hpne, leads_trans _ _ _ h2 hrp, by
        unfold leafAtB
        rw [insertParts_lookAt_self _ _ _ _ h]⟩
    · have hfr := insertParts_lookAt_frame _ _ _ _ r h
        (Bool.eq_false_iff.mpr h1) (Bool.eq_false_iff.mpr h2)
      refine ⟨r, hrne, hrp, ?_⟩
      unfold leafAtB at hrleaf ⊢
      rw [hfr]
      exact hrleaf

theorem build_fails_after (k2 : String) (v2 : Value) (l3 : List (String × Value))
    (p : List String) (hp : leads p (splitDot k2) = true) (hne : p ≠ splitDot k2) :
    ∀ (l2 : List (String × Value)) (d : PDict),
      (∃ r, r ≠ [] ∧ leads r p = true ∧ leafAtB d r = true) →
      buildTreeFromPaths d (l2 ++ (k2, v2) :: l3) = none := by
  intro l2
  induction l2 with
  | nil =>
      intro d hinv
      obtain ⟨r, hrne, hrp, hrleaf⟩ := hinv
      have hrk2 : leads r (splitDot k2) = true := leads_trans _ _ _ hrp hp
      have hrneq : r ≠ splitDot k2 := by
        intro hh
        rw [hh] at hrp
        exact hne (leads_antisymm _ _ hp hrp)
      have hfail := insertParts_fail r (splitDot k2) d v2 hrne hrk2 hrneq hrleaf
      simp only [List.nil_append, buildTreeFromPaths, hfail]
  | cons x l2' ih =>
      intro d hinv
      simp only [List.cons_append, buildTreeFromPaths]
      cases hx : insertParts d (splitDot x.1) x.2 with
      | none => rfl
      | some d' => exact ih d' (insertParts_preserves_leafAbove _ _ _ _ _ hx hinv)

/-- C10: the dotted-path builder needs prefix-free keys.  For every mapping
whose key segment sequences are pairwise prefix-free (which, keys of a dict
being distinct, is exactly the claim's proper-prefix-freedom together with no
key landing on a group position), the build completes without error.  And
whenever some key's full segment sequence is a proper prefix of a later key's
(in iteration order), the walk of the later key descends into the scalar
stored by the earlier one and the build raises — the whole call errors. -/
theorem C10_builder_requires_prefix_free :
    (∀ kvs : List (String × Value),
      pairwiseNoLeads (kvs.map (fun kv => splitDot kv.1)) = true →
      ∃ dfin, buildYaml kvs = some dfin) ∧
    (∀ (l1 : List (String × Value)) (k1 : String) (v1 : Value)
        (l2 : List (String × Value)) (k2 : String) (v2 : Value)
        (l3 : List (String × Value)),
      leads (splitDot k1) (splitDot k2) = true → splitDot k1 ≠ splitDot k2 →
      buildYaml (l1 ++ (k1, v1) :: l2 ++ (k2, v2) :: l3) = none) := by
  constructor
  · intro kvs hpw
    obtain ⟨dfin, hbuild, _⟩ :=
      build_inv kvs .dnil [] rfl rfl (by simp) leafAtB_dnil_iff dictAtB_dnil_iff
        (by simp) hpw
    exact ⟨dfin, hbuild⟩
  · intro l1 k1 v1 l2 k2 v2 l3 hp hne
    unfold buildYaml
    have main : ∀ (l1' : List (String × Value)) (d : PDict),
        buildTreeFromPaths d (l1' ++ (k1, v1) :: l2 ++ (k2, v2) :: l3) = none := by
      intro l1'
      induction l1' with
      | nil =>
          intro d
          simp only [List.nil_append, buildTreeFromPaths]
          cases hx : insertParts d (splitDot k1) v1 with
          | none => rfl
          | some d' =>
              have hinv : ∃ r, r ≠ [] ∧ leads r (splitDot k1) = true ∧
                  leafAtB d' r = true :=
                ⟨splitDot k1, splitDot_ne_nil k1, leads_refl _, by
                  unfold leafAtB
                  rw [insertParts_lookAt_self _ _ _ _ hx]⟩
              exact build_fails_after k2 v2 l3 (splitDot k1) hp hne l2 d' hinv
      | cons x l1'' ih =>
          intro d
          simp only [List.cons_append, buildTreeFromPaths]
          cases hx : insertParts d (splitDot x.1) x.2 with
          | none => rfl
          | some d' => exact ih d'
    exact main l1 .dnil

/-- C10 instantiated: the prefix-free example mapping builds successfully,
and the claim's own example — `"a"` inserted before `"a.b"` — reaches the
error branch. -/
theorem C10_builder_requires_prefix_free_witness :
    (pairwiseNoLeads (([("a.b.x", Value.vInt 1), ("a.c", Value.vInt 3)] :
        List (String × Value)).map (fun kv => splitDot kv.1)) = true ∧
      ∃ dfin, buildYaml [("a.b.x", Value.vInt 1), ("a.c", Value.vInt 3)] = some dfin) ∧
    (leads (splitDot "a") (splitDot "a.b") = true ∧ splitDot "a" ≠ splitDot "a.b" ∧
      buildYaml [("a", Value.vInt 1), ("a.b", Value.vInt 2)] = none) :=
  ⟨⟨by decide, C10_builder_requires_prefix_free.1
      [("a.b.x", Value.vInt 1), ("a.c", Value.vInt 3)] (by decide)⟩,
   ⟨by decide, by decide,
    C10_builder_requires_prefix_free.2 [] "a" (Value.vInt 1) [] "a.b" (Value.vInt 2) []
      (by decide) (by decide)⟩⟩
